import Mathlib

/-
Verification of the fuzzy geographic-name reconciliation engine of the
GestUnifServ repository (scripts/normalize_activos.py,
scripts/fuzzy_normalize_activos.py, scripts/generate_activos_comparado.py,
scripts/apply_manual_and_recompare.py).

Python strings are modelled as `List Char`.  The Unicode step
`unicodedata.normalize("NFKD", s).encode("ascii", "ignore").decode("ascii")`
is modelled character by character: ASCII characters are untouched, the
accented Latin letters that occur in the repository's domain decompose to
their base letter (the combining mark being dropped by the ascii encode),
and every other non-ASCII character is dropped.  Python floats are modelled
as exact rationals.
-/

namespace GestUnifServ

set_option maxRecDepth 10000

abbrev Str := List Char

/-- Coerce a Lean string literal to the `List Char` model. -/
def S (s : String) : Str := s.data

/-- Characters stripped by Python `str.strip()` and split on by `str.split()`
(the ASCII whitespace repertoire; exotic Unicode spaces are not modelled). -/
def isPyWS (c : Char) : Bool :=
  c = ' ' ∨ c = '\t' ∨ c = '\n' ∨ c = '\r' ∨ c.toNat = 11 ∨ c.toNat = 12

/-- Python `str.strip()`. -/
def pyStrip (s : Str) : Str :=
  ((s.dropWhile isPyWS).reverse.dropWhile isPyWS).reverse

/-- One character of `normalize("NFKD", ·).encode("ascii","ignore")`:
ASCII characters survive unchanged, accented Latin letters of the domain
decompose to base letter + combining mark and the mark is dropped,
all other non-ASCII characters are dropped. -/
def asciiFold (c : Char) : List Char :=
  if c.toNat < 128 then [c]
  else if c = 'á' then ['a'] else if c = 'é' then ['e']
  else if c = 'í' then ['i'] else if c = 'ó' then ['o']
  else if c = 'ú' then ['u'] else if c = 'ü' then ['u']
  else if c = 'ñ' then ['n']
  else if c = 'Á' then ['A'] else if c = 'É' then ['E']
  else if c = 'Í' then ['I'] else if c = 'Ó' then ['O']
  else if c = 'Ú' then ['U'] else if c = 'Ü' then ['U']
  else if c = 'Ñ' then ['N']
  else []

/-- Python `str.lower()` on the ASCII repertoire (the string is ASCII-only
after the fold above). -/
def lowerChar (c : Char) : Char :=
  if 'A' ≤ c ∧ c ≤ 'Z' then Char.ofNat (c.toNat + 32) else c

/-- `ch.isalnum()` on a lowercased ASCII string. -/
def isAlnumA (c : Char) : Bool :=
  ('a' ≤ c ∧ c ≤ 'z') ∨ ('0' ≤ c ∧ c ≤ '9')

/-- The per-character keep test: characters passing `pred` and spaces are
kept, everything else is replaced by a space. -/
def keepWith (pred : Char → Bool) (c : Char) : Char :=
  if pred c ∨ c = ' ' then c else ' '

/-- Raw whitespace chunks of a string, empty chunks included (helper for
Python `str.split()`). -/
def chunks (s : Str) : List Str :=
  s.foldr
    (fun c acc =>
      if isPyWS c then [] :: acc
      else
        match acc with
        | [] => [[c]]
        | w :: ws => (c :: w) :: ws)
    []

/-- Python `str.split()` with no arguments: split on whitespace runs,
dropping empty pieces. -/
def splitWS (s : Str) : List Str :=
  (chunks s).filter (fun w => w ≠ [])

/-- Python `" ".join(ws)`. -/
def joinSp : List Str → Str
  | [] => []
  | [w] => w
  | w :: ws => w ++ ' ' :: joinSp ws

/-- `" ".join(s.split())`. -/
def collapse (s : Str) : Str := joinSp (splitWS s)

/-- The shared slug pipeline: strip, NFKD-fold to ASCII, lowercase, keep
only `pred`-characters and spaces (others become spaces), then collapse
whitespace.  Instantiated by the two `slug` variants found in the repo. -/
def slugWith (pred : Char → Bool) (s : Str) : Str :=
  collapse (((((pyStrip s).map asciiFold).flatten).map lowerChar).map (keepWith pred))

namespace FuzzyNorm

/-- `slug` as defined identically in scripts/fuzzy_normalize_activos.py,
scripts/generate_activos_comparado.py and
scripts/apply_manual_and_recompare.py: keeps alphanumerics and spaces. -/
def slug (s : Str) : Str := slugWith isAlnumA s

/-- Models the `(s or "")` guard of the Python `slug` for a `None`
argument. -/
def slugOfOpt (s : Option Str) : Str := slug (s.getD [])

end FuzzyNorm

namespace NormAct

/-- `ch` is a lowercase ASCII letter (chars kept by normalize_activos.py's
`slug` besides spaces). -/
def isLowerA (c : Char) : Bool := 'a' ≤ c ∧ c ≤ 'z'

/-- `slug` as defined in scripts/normalize_activos.py: note it keeps only
lowercase letters and spaces — digits are replaced by spaces. -/
def slug (s : Str) : Str := slugWith isLowerA s

/-- Models the `if s is None: return ""` guard of normalize_activos.py's
`slug`. -/
def slugOfOpt (s : Option Str) : Str := slug (s.getD [])

end NormAct

/-- `_letters` from scripts/fuzzy_normalize_activos.py: NFKD-fold to ASCII,
lowercase, keep only letters. -/
def lettersOf (s : Str) : Str :=
  (((s.map asciiFold).flatten).map lowerChar).filter NormAct.isLowerA

open FuzzyNorm in
/-- `apply_alias` from scripts/fuzzy_normalize_activos.py.  The slugs and
letter forms are computed once from the inputs; the rules then rewrite the
local variables in order. -/
def apply_alias (depto muni : Str) : Str × Str :=
  let dslug := slug depto
  let mslug := slug muni
  let mlet := lettersOf muni
  let depto := if dslug = slug (S "Cesar") then S "César" else depto
  let muni :=
    if mslug = slug (S "Togüí") ∨ mslug = slug (S "Toguí") then S "Toguí" else muni
  let muni :=
    if dslug = slug (S "Bolívar") ∧
        (mslug = slug (S "Cartagena") ∨ mlet = lettersOf (S "Cartagena")) then
      S "Cartagena de Indias"
    else muni
  let muni :=
    if dslug = slug (S "Bolívar") ∧ mslug = slug (S "Santa Rosa de Lima Norte") then
      S "Santa Rosa"
    else muni
  let p :=
    if dslug = slug (S "Distrito Capital") ∧
        (mslug = slug (S "Bogotá D.C.") ∨ mslug = slug (S "Bogotá") ∨
          mlet = S "bogotadc" ∨ mlet = S "bogota" ∨ mlet = S "bogotad" ∨
          mlet = S "bogotdc") then
      (S "Cundinamarca", S "Bogotá")
    else (depto, muni)
  let q :=
    if (dslug = slug (S "Valle del Cauva") ∨ dslug = slug (S "Valle del Cauca")) ∧
        (mslug = slug (S "Santiago de Cali") ∨ mslug = slug (S "Cali") ∨
          mlet = S "santiagodecali" ∨ mlet = S "cali") then
      (S "Valle del Cauca", S "Cali")
    else p
  q

/-!  Model of the difflib primitives used by the scripts.
`SequenceMatcher` is modelled without its junk/autojunk heuristics (autojunk
only affects sequences of length ≥ 200, far beyond any place name here), and
its float arithmetic is replaced by exact rationals. -/

/-- Length of the common prefix of two character lists. -/
def commonPrefixLen : Str → Str → Nat
  | a :: as, b :: bs => if a = b then commonPrefixLen as bs + 1 else 0
  | _, _ => 0

/-- `SequenceMatcher.find_longest_match` over whole strings (no junk):
the longest block `(i, j, k)` with `a[i..i+k) = b[j..j+k)`, ties broken by
smallest `i`, then smallest `j` — equivalent to difflib's first-found rule
on its dynamic program. -/
def longestMatch (a b : Str) : Nat × Nat × Nat :=
  (List.range (a.length + 1)).foldl
    (fun acc i =>
      (List.range (b.length + 1)).foldl
        (fun acc j =>
          let k := commonPrefixLen (a.drop i) (b.drop j)
          if k > acc.2.2 then (i, j, k) else acc)
        acc)
    (0, 0, 0)

/-- Total size of the matching blocks (`get_matching_blocks` recursion),
with explicit fuel; `a.length + b.length` fuel always suffices. -/
def matchTotalFuel : Nat → Str → Str → Nat
  | 0, _, _ => 0
  | fuel + 1, a, b =>
    let t := longestMatch a b
    if t.2.2 = 0 then 0
    else
      matchTotalFuel fuel (a.take t.1) (b.take t.2.1) + t.2.2 +
        matchTotalFuel fuel (a.drop (t.1 + t.2.2)) (b.drop (t.2.1 + t.2.2))

/-- Total number of matched characters between `a` and `b`. -/
def matchTotal (a b : Str) : Nat := matchTotalFuel (a.length + b.length) a b

/-- Rational addition written through `mkRat` so that it evaluates by
kernel reduction (`Rat.add` itself does not); provably equal to `+`. -/
def qadd (a b : ℚ) : ℚ := mkRat (a.num * b.den + b.num * a.den) (a.den * b.den)

/-- Rational multiplication written through `mkRat`; provably equal to `*`. -/
def qmul (a b : ℚ) : ℚ := mkRat (a.num * b.num) (a.den * b.den)

theorem qadd_eq (a b : ℚ) : qadd a b = a + b := by
  have ha : (a.den : ℚ) ≠ 0 := by exact_mod_cast a.den_nz
  have hb : (b.den : ℚ) ≠ 0 := by exact_mod_cast b.den_nz
  rw [qadd, Rat.mkRat_eq_div]
  push_cast
  conv_rhs => rw [← Rat.num_div_den a, ← Rat.num_div_den b]
  field_simp

theorem qmul_eq (a b : ℚ) : qmul a b = a * b := by
  have ha : (a.den : ℚ) ≠ 0 := by exact_mod_cast a.den_nz
  have hb : (b.den : ℚ) ≠ 0 := by exact_mod_cast b.den_nz
  rw [qmul, Rat.mkRat_eq_div]
  push_cast
  conv_rhs => rw [← Rat.num_div_den a, ← Rat.num_div_den b]
  rw [div_mul_div_comm]

/-- `SequenceMatcher(None, a, b).ratio()`: `2*M / (len(a)+len(b))`, and `1`
for two empty strings. -/
def ratioQ (a b : Str) : ℚ :=
  if a.length + b.length = 0 then 1
  else mkRat (2 * matchTotal a b) (a.length + b.length)

/-- Lexicographic (code-point) comparison of Python strings, used by
`heapq.nlargest` to break ratio ties inside `get_close_matches`. -/
def strLtB : Str → Str → Bool
  | [], [] => false
  | [], _ :: _ => true
  | _ :: _, [] => false
  | a :: as, b :: bs => if a < b then true else if b < a then false else strLtB as bs

/-- One step of the best-candidate scan of `get_close_matches`: keep the
candidate of maximal `(ratio, string)` among those with ratio ≥ cutoff
(`heapq.nlargest(1, ·)` on `(ratio, string)` pairs). -/
def gcmStep (word : Str) (cutoff : ℚ) (acc : Option (ℚ × Str)) (x : Str) :
    Option (ℚ × Str) :=
  let r := ratioQ x word
  if cutoff ≤ r then
    match acc with
    | none => some (r, x)
    | some (br, bx) =>
      if br < r ∨ (br = r ∧ strLtB bx x) then some (r, x) else acc
  else acc

/-- `difflib.get_close_matches(word, poss, n=1, cutoff)`: the candidate of
maximal `(ratio, string)` among those with ratio ≥ cutoff, if any.  Note
difflib computes `SequenceMatcher(None, x, word)` — the candidate is the
first sequence. -/
def get_close_matches1 (word : Str) (poss : List Str) (cutoff : ℚ) : Option Str :=
  (poss.foldl (gcmStep word cutoff) none).map Prod.snd

/-!  The canonical gazetteer loader (`load_canonical` in
scripts/fuzzy_normalize_activos.py).  Python dicts are modelled as
association lists in insertion order: assignment replaces in place,
`setdefault` keeps the first binding, new keys are appended at the end.  -/

/-- A gazetteer record `(department, municipality, country)`. -/
abbrev Triple := Str × Str × Str

/-- Association-list lookup (Python `dict.get`). -/
def alookup {β : Type} : List ((Str × Str) × β) → (Str × Str) → Option β
  | [], _ => none
  | (k, v) :: t, k' => if k = k' then some v else alookup t k'

/-- Association-list lookup keyed by a single string. -/
def slookup {β : Type} : List (Str × β) → Str → Option β
  | [], _ => none
  | (k, v) :: t, k' => if k = k' then some v else slookup t k'

/-- Python `d[k] = v`: replace in place, else append. -/
def upsertA {β : Type} (k : Str × Str) (v : β) :
    List ((Str × Str) × β) → List ((Str × Str) × β)
  | [] => [(k, v)]
  | (k', v') :: t => if k' = k then (k, v) :: t else (k', v') :: upsertA k v t

/-- Python `d.setdefault(k, v)` when the stored value is only read later:
insert at the end if absent. -/
def insertIfAbsent {β : Type} (k : Str) (v : β) : List (Str × β) → List (Str × β)
  | [] => [(k, v)]
  | (k', v') :: t => if k' = k then (k', v') :: t else (k', v') :: insertIfAbsent k v t

/-- Python `d.setdefault(k, []).append(x)`. -/
def appendAt {β : Type} (k : Str) (x : β) : List (Str × List β) → List (Str × List β)
  | [] => [(k, [x])]
  | (k', l) :: t => if k' = k then (k', l ++ [x]) :: t else (k', l) :: appendAt k x t

open FuzzyNorm in
/-- The lookup structures built by `load_canonical` in
scripts/fuzzy_normalize_activos.py. -/
structure Gaz where
  canon : List ((Str × Str) × Triple)
  deptSlugToName : List (Str × Str)
  muniByDept : List (Str × List Str)
  globalMuni : List (Str × List Triple)
  allPairs : List Triple
deriving DecidableEq

open FuzzyNorm in
/-- One iteration of the row loop of `load_canonical`: strip the fields,
skip the row if department or municipality is empty, otherwise update the
four indices. -/
def loadRow (G : Gaz) (row : Triple) : Gaz :=
  let d := pyStrip row.1
  let m := pyStrip row.2.1
  let p := pyStrip row.2.2
  if d = [] ∨ m = [] then G
  else
    { canon := upsertA (slug d, slug m) (d, m, p) G.canon
      deptSlugToName := insertIfAbsent (slug d) d G.deptSlugToName
      muniByDept := appendAt (slug d) m G.muniByDept
      globalMuni := appendAt (slug m) (d, m, p) G.globalMuni
      allPairs := G.allPairs }

/-- `load_canonical` from scripts/fuzzy_normalize_activos.py over a list of
already-parsed rows.  `all_pairs` is materialized in the source through a
Python set of the mapping's values, whose iteration order is unspecified;
since distinct keys always hold distinct values here, the set has exactly
the mapping's values and we keep them in mapping order. -/
def load_canonical (rows : List Triple) : Gaz :=
  let g := rows.foldl loadRow ⟨[], [], [], [], []⟩
  { g with allPairs := g.canon.map Prod.snd }

/-!  The per-candidate reconciliation pipeline: the body of the row loop of
`fuzzy_normalize` in scripts/fuzzy_normalize_activos.py (lines 127-248).
A row is modelled by its department, municipality and country fields; the
comparison tag is the value written to the `comparacion` column.  The
result is `none` when the Python code would raise (`canon[...]` /
`dept_slug_to_name[...]` indexing on a missing key). -/

/-- The fields of one output row. -/
structure RowRes where
  dep : Str
  mun : Str
  pais : Str
  cmp : Str
deriving DecidableEq

/-- Tag written on an exact match with identical strings. -/
def tagUnchanged : Str := S "sin cambio"

/-- Tag written whenever the row is rewritten. -/
def tagChanged : Str := S "cambio"

/-- Tag written when no tier accepts the row. -/
def tagUnmatched : Str := S "no coincidencia"

/-- Outcome of one matching tier. -/
inductive TierOut where
  | hit (r : RowRes)
  | miss
  | raise
deriving DecidableEq

open FuzzyNorm in
/-- The municipality fuzzy match shared by tiers 3 and 4: direct
`get_close_matches` on the raw names at cutoff 0.8, then on the slugged
names at cutoff 0.7 mapping the winning slug back to the first candidate
with that slug (if the scan found none, Python keeps the slug itself). -/
def pickMuni (candidates : List Str) (m : Str) : Option Str :=
  match get_close_matches1 m candidates (mkRat 8 10) with
  | some x => some x
  | none =>
    match get_close_matches1 (slug m) (candidates.map slug) (mkRat 7 10) with
    | some ms => some ((candidates.find? (fun c => slug c = ms)).getD ms)
    | none => none

open FuzzyNorm in
/-- Tier 3: fuzzy municipality match inside the department given by the
exact department slug. -/
def tier3 (G : Gaz) (d m : Str) : TierOut :=
  let dslug := slug d
  let candidates := (slookup G.muniByDept dslug).getD []
  if candidates.isEmpty then .miss
  else
    match pickMuni candidates m with
    | none => .miss
    | some mCan =>
      let dCan := (slookup G.deptSlugToName dslug).getD d
      match alookup G.canon (slug dCan, slug mCan) with
      | some t => .hit ⟨dCan, mCan, t.2.2, tagChanged⟩
      | none => .raise

open FuzzyNorm in
/-- Tier 4: fuzzy-match the department slug against all known department
slugs (cutoff 0.8), then retry the municipality match in that department. -/
def tier4 (G : Gaz) (d m : Str) : TierOut :=
  let dslug := slug d
  match get_close_matches1 dslug (G.deptSlugToName.map Prod.fst) (mkRat 8 10) with
  | none => .miss
  | some dslug2 =>
    match slookup G.deptSlugToName dslug2 with
    | none => .raise
    | some dCan =>
      let candidates := (slookup G.muniByDept dslug2).getD []
      match pickMuni candidates m with
      | none => .miss
      | some mCan =>
        match alookup G.canon (slug dCan, slug mCan) with
        | some t => .hit ⟨dCan, mCan, t.2.2, tagChanged⟩
        | none => .raise

open FuzzyNorm in
/-- Tier 5: fuzzy-match the municipality slug against the global
municipality index (cutoff 0.85); accept only a list holding exactly one
entry. -/
def tier5 (G : Gaz) (m : Str) : TierOut :=
  match get_close_matches1 (slug m) (G.globalMuni.map Prod.fst) (mkRat 17 20) with
  | none => .miss
  | some s =>
    match (slookup G.globalMuni s).getD [] with
    | [e] => .hit ⟨e.1, e.2.1, e.2.2, tagChanged⟩
    | _ => .miss

open FuzzyNorm in
/-- The combined score of tier 6:
`0.65 * ratio(ms, slug(m_can)) + 0.35 * ratio(ds, slug(d_can))`. -/
def tier6score (ds ms : Str) (e : Triple) : ℚ :=
  qadd (qmul (mkRat 65 100) (ratioQ ms (slug e.2.1)))
    (qmul (mkRat 35 100) (ratioQ ds (slug e.1)))

/-- The arg-max fold of tier 6: start from `(None, 0.0)` and replace the
best candidate whenever the score strictly improves. -/
def tier6best (ds ms : Str) (pairs : List Triple) : Option Triple × ℚ :=
  pairs.foldl
    (fun acc e =>
      let sc := tier6score ds ms e
      if acc.2 < sc then (some e, sc) else acc)
    (none, 0)

open FuzzyNorm in
/-- Tier 6 plus the terminal unmatched branch: accept the best global pair
iff one exists and its score is at least 0.62, else tag the row
`no coincidencia`, keeping all its fields. -/
def tier6 (G : Gaz) (rd rm rp d m : Str) : RowRes :=
  let b := tier6best (slug d) (slug m) G.allPairs
  match b.1 with
  | some e => if mkRat 62 100 ≤ b.2 then ⟨e.1, e.2.1, e.2.2, tagChanged⟩
      else ⟨rd, rm, rp, tagUnmatched⟩
  | none => ⟨rd, rm, rp, tagUnmatched⟩

open FuzzyNorm in
/-- The pipeline after alias normalization: exact canonical lookup, then
tiers 3-6.  `rd`, `rm`, `rp` are the row's stored fields; `d`, `m` the
stripped, alias-normalized working values. -/
def fuzzy_normalize_core (G : Gaz) (rd rm rp d m : Str) : Option RowRes :=
  match alookup G.canon (slug d, slug m) with
  | some t =>
    if d = t.1 ∧ m = t.2.1 then some ⟨rd, rm, t.2.2, tagUnchanged⟩
    else some ⟨t.1, t.2.1, t.2.2, tagChanged⟩
  | none =>
    match tier3 G d m with
    | .hit r => some r
    | .raise => none
    | .miss =>
      match tier4 G d m with
      | .hit r => some r
      | .raise => none
      | .miss =>
        match tier5 G m with
        | .hit r => some r
        | .raise => none
        | .miss => some (tier6 G rd rm rp d m)

/-- One iteration of the row loop of `fuzzy_normalize`: strip the two name
fields, apply the alias table to the local copies, then run the pipeline. -/
def fuzzy_normalize_row (G : Gaz) (rd rm rp : Str) : Option RowRes :=
  let a := apply_alias (pyStrip rd) (pyStrip rm)
  fuzzy_normalize_core G rd rm rp a.1 a.2

/-- The whole row loop of `fuzzy_normalize` with its counters: returns the
output rows in input order together with
`(total, sin_cambio, cambio, no_coincidencia)`; `none` if some row raised. -/
def fuzzy_normalize_batch (G : Gaz) :
    List Triple → Option (List RowRes × Nat × Nat × Nat × Nat)
  | [] => some ([], 0, 0, 0, 0)
  | r :: rs =>
    match fuzzy_normalize_row G r.1 r.2.1 r.2.2 with
    | none => none
    | some res =>
      match fuzzy_normalize_batch G rs with
      | none => none
      | some (out, t, sc, ch, nc) =>
        some (res :: out, t + 1,
          (if res.cmp = tagUnchanged then sc + 1 else sc),
          (if res.cmp = tagChanged then ch + 1 else ch),
          (if res.cmp = tagUnmatched then nc + 1 else nc))

/-!  Lemmas about the whitespace machinery, leading to idempotence of the
slug pipeline. -/

theorem chunks_cons (c : Char) (s : Str) :
    chunks (c :: s) =
      if isPyWS c then [] :: chunks s
      else
        match chunks s with
        | [] => [[c]]
        | w :: ws => (c :: w) :: ws := rfl

theorem chunks_chars {s : Str} : ∀ w ∈ chunks s, ∀ c ∈ w, isPyWS c = false := by
  induction s with
  | nil => intro w hw; simp [chunks] at hw
  | cons a s ih =>
    intro w hw c hc
    rw [chunks_cons] at hw
    by_cases h : isPyWS a
    · rw [if_pos h] at hw
      rcases List.mem_cons.mp hw with hw | hw
      · subst hw; simp at hc
      · exact ih w hw c hc
    · rw [if_neg h] at hw
      cases hcs : chunks s with
      | nil =>
        rw [hcs] at hw
        simp only [List.mem_singleton] at hw
        subst hw
        rcases List.mem_singleton.mp hc with rfl
        simpa using h
      | cons w0 ws0 =>
        rw [hcs] at hw
        rcases List.mem_cons.mp hw with hw | hw
        · subst hw
          rcases List.mem_cons.mp hc with rfl | hc
          · simpa using h
          · exact ih w0 (hcs ▸ List.mem_cons_self w0 ws0) c hc
        · exact ih w (hcs ▸ List.mem_cons_of_mem w0 hw) c hc

theorem splitWS_words {s : Str} :
    ∀ w ∈ splitWS s, w ≠ [] ∧ ∀ c ∈ w, isPyWS c = false := by
  intro w hw
  have h1 := List.of_mem_filter hw
  have h2 : w ∈ chunks s := List.mem_of_mem_filter hw
  exact ⟨by simpa using h1, chunks_chars w h2⟩

theorem chunks_word_append {w : Str} (hw : ∀ c ∈ w, isPyWS c = false) (t : Str) :
    chunks (w ++ t) =
      match chunks t with
      | [] => if w = [] then [] else [w]
      | a :: as => (w ++ a) :: as := by
  induction w with
  | nil =>
    cases hcs : chunks t with
    | nil => simp [hcs]
    | cons a as => simp [hcs]
  | cons c w ih =>
    have hc : isPyWS c = false := hw c (List.mem_cons_self c w)
    have hw' : ∀ c ∈ w, isPyWS c = false := fun x hx => hw x (List.mem_cons_of_mem c hx)
    rw [List.cons_append, chunks_cons, if_neg (by simp [hc]), ih hw']
    cases hcs : chunks t with
    | nil =>
      cases hwnil : w with
      | nil => simp
      | cons x xs => simp [hwnil]
    | cons a as => simp

theorem chunks_word_append_nil {w : Str} (hw : ∀ c ∈ w, isPyWS c = false) {t : Str}
    (h : chunks t = []) : chunks (w ++ t) = if w = [] then [] else [w] := by
  rw [chunks_word_append hw t, h]

theorem chunks_word_append_cons {w : Str} (hw : ∀ c ∈ w, isPyWS c = false) {t : Str}
    {a : Str} {as : List Str} (h : chunks t = a :: as) :
    chunks (w ++ t) = (w ++ a) :: as := by
  rw [chunks_word_append hw t, h]

theorem joinSp_cons_cons (w v : Str) (ws : List Str) :
    joinSp (w :: v :: ws) = w ++ ' ' :: joinSp (v :: ws) := rfl

theorem splitWS_joinSp {ws : List Str}
    (h : ∀ w ∈ ws, w ≠ [] ∧ ∀ c ∈ w, isPyWS c = false) :
    splitWS (joinSp ws) = ws := by
  induction ws with
  | nil => rfl
  | cons w ws ih =>
    have hw := h w (List.mem_cons_self w ws)
    have hws : ∀ v ∈ ws, v ≠ [] ∧ ∀ c ∈ v, isPyWS c = false :=
      fun v hv => h v (List.mem_cons_of_mem w hv)
    cases ws with
    | nil =>
      show splitWS (joinSp [w]) = [w]
      have hj : joinSp [w] = w ++ [] := by simp [joinSp]
      rw [hj, splitWS, chunks_word_append_nil hw.2 (show chunks [] = [] from rfl),
        if_neg hw.1]
      simp [hw.1]
    | cons v vs =>
      have hx : chunks (' ' :: joinSp (v :: vs)) = [] :: chunks (joinSp (v :: vs)) := by
        rw [chunks_cons, if_pos (by decide)]
      rw [joinSp_cons_cons, splitWS, chunks_word_append_cons hw.2 hx]
      have hrec : (chunks (joinSp (v :: vs))).filter (fun x => x ≠ []) = v :: vs :=
        ih hws
      rw [List.filter_cons]
      simp only [List.append_nil]
      rw [if_pos (by simpa using hw.1)]
      exact congrArg (w :: ·) hrec

theorem joinSp_chars {ws : List Str} {c : Char} (hc : c ∈ joinSp ws) :
    c = ' ' ∨ ∃ w ∈ ws, c ∈ w := by
  induction ws with
  | nil => simp [joinSp] at hc
  | cons w ws ih =>
    cases ws with
    | nil =>
      right
      exact ⟨w, List.mem_singleton.mpr rfl, hc⟩
    | cons v vs =>
      rw [joinSp_cons_cons] at hc
      rcases List.mem_append.mp hc with h | h
      · right; exact ⟨w, List.mem_cons_self w _, h⟩
      · rcases List.mem_cons.mp h with rfl | h
        · left; rfl
        · rcases ih h with h | ⟨u, hu, hcu⟩
          · left; exact h
          · right; exact ⟨u, List.mem_cons_of_mem w hu, hcu⟩

theorem joinSp_append_single (xs : List Str) (y : Str) :
    joinSp (xs ++ [y]) = if xs = [] then y else joinSp xs ++ ' ' :: y := by
  induction xs with
  | nil => rfl
  | cons x xs ih =>
    cases xs with
    | nil => rfl
    | cons z zs =>
      rw [if_neg (by simp)]
      have : (x :: z :: zs) ++ [y] = x :: ((z :: zs) ++ [y]) := rfl
      rw [this]
      have h2 : (z :: zs) ++ [y] = z :: (zs ++ [y]) := rfl
      rw [h2, joinSp_cons_cons]
      rw [← h2, ih, if_neg (by simp), joinSp_cons_cons]
      simp

theorem joinSp_reverse (ws : List Str) :
    (joinSp ws).reverse = joinSp ((ws.reverse).map List.reverse) := by
  induction ws with
  | nil => rfl
  | cons w ws ih =>
    cases ws with
    | nil => simp [joinSp]
    | cons v vs =>
      rw [joinSp_cons_cons, List.reverse_append]
      have : (' ' :: joinSp (v :: vs)).reverse = (joinSp (v :: vs)).reverse ++ [' '] := by
        simp
      rw [this, ih]
      have hmap : ((w :: v :: vs).reverse).map List.reverse =
          ((v :: vs).reverse).map List.reverse ++ [w.reverse] := by
        simp
      rw [hmap, joinSp_append_single]
      have hne : ((v :: vs).reverse).map List.reverse ≠ [] := by simp
      rw [if_neg hne]
      simp

theorem char_le_iff (a b : Char) : a ≤ b ↔ a.toNat ≤ b.toNat := by
  rw [Char.le_def]; rfl

theorem chunks_subset {s : Str} : ∀ w ∈ chunks s, ∀ c ∈ w, c ∈ s := by
  induction s with
  | nil => intro w hw; simp [chunks] at hw
  | cons a s ih =>
    intro w hw c hc
    rw [chunks_cons] at hw
    by_cases h : isPyWS a
    · rw [if_pos h] at hw
      rcases List.mem_cons.mp hw with hw | hw
      · subst hw; simp at hc
      · exact List.mem_cons_of_mem a (ih w hw c hc)
    · rw [if_neg h] at hw
      cases hcs : chunks s with
      | nil =>
        rw [hcs] at hw
        rcases List.mem_singleton.mp hw with rfl
        rcases List.mem_singleton.mp hc with rfl
        exact List.mem_cons_self _ _
      | cons w0 ws0 =>
        rw [hcs] at hw
        rcases List.mem_cons.mp hw with hw | hw
        · subst hw
          rcases List.mem_cons.mp hc with rfl | hc
          · exact List.mem_cons_self _ _
          · exact List.mem_cons_of_mem a
              (ih w0 (hcs ▸ List.mem_cons_self w0 ws0) c hc)
        · exact List.mem_cons_of_mem a
            (ih w (hcs ▸ List.mem_cons_of_mem w0 hw) c hc)

theorem splitWS_subset {s : Str} {w : Str} (hw : w ∈ splitWS s) {c : Char}
    (hc : c ∈ w) : c ∈ s :=
  chunks_subset w (List.mem_of_mem_filter hw) c hc

theorem keepWith_char (pred : Char → Bool) (x : Char) :
    keepWith pred x = ' ' ∨ pred (keepWith pred x) = true := by
  unfold keepWith
  split_ifs with h
  · rcases h with h | h
    · right; exact h
    · left; exact h
  · left; rfl

theorem slugWith_chars {pred : Char → Bool} {s : Str} {c : Char}
    (hc : c ∈ slugWith pred s) : c = ' ' ∨ pred c = true := by
  unfold slugWith collapse at hc
  rcases joinSp_chars hc with h | ⟨w, hw, hcw⟩
  · left; exact h
  · have h3 := splitWS_subset hw hcw
    rcases List.mem_map.mp h3 with ⟨x, _, hx⟩
    rcases keepWith_char pred x with h4 | h4
    · left; rw [← hx]; exact h4
    · right; rw [← hx]; exact h4

theorem map_id_on {f : Char → Char} :
    ∀ (l : Str), (∀ c ∈ l, f c = c) → l.map f = l := by
  intro l
  induction l with
  | nil => intro; rfl
  | cons a l ih =>
    intro h
    rw [List.map_cons, h a (List.mem_cons_self a l),
      ih (fun c hc => h c (List.mem_cons_of_mem a hc))]

theorem flatten_map_singleton {f : Char → List Char} :
    ∀ (l : Str), (∀ c ∈ l, f c = [c]) → (l.map f).flatten = l := by
  intro l
  induction l with
  | nil => intro; rfl
  | cons a l ih =>
    intro h
    rw [List.map_cons, List.flatten_cons, h a (List.mem_cons_self a l),
      ih (fun c hc => h c (List.mem_cons_of_mem a hc))]
    rfl

theorem joinSp_dropWhile_self {ws : List Str}
    (h : ∀ w ∈ ws, w ≠ [] ∧ ∀ c ∈ w, isPyWS c = false) :
    (joinSp ws).dropWhile isPyWS = joinSp ws := by
  cases ws with
  | nil => rfl
  | cons w ws' =>
    have hw := h w (List.mem_cons_self w ws')
    obtain ⟨c, t, rfl⟩ : ∃ c t, w = c :: t := by
      cases w with
      | nil => exact absurd rfl hw.1
      | cons c t => exact ⟨c, t, rfl⟩
    have hc : isPyWS c = false := hw.2 c (List.mem_cons_self c t)
    cases ws' with
    | nil =>
      show ((c :: t : Str)).dropWhile isPyWS = (c :: t : Str)
      rw [List.dropWhile_cons, if_neg (by simp [hc])]
    | cons v vs =>
      rw [joinSp_cons_cons, List.cons_append, List.dropWhile_cons,
        if_neg (by simp [hc])]

theorem pyStrip_joinSp {ws : List Str}
    (h : ∀ w ∈ ws, w ≠ [] ∧ ∀ c ∈ w, isPyWS c = false) :
    pyStrip (joinSp ws) = joinSp ws := by
  have hrevgood : ∀ v ∈ (ws.reverse).map List.reverse,
      v ≠ [] ∧ ∀ c ∈ v, isPyWS c = false := by
    intro v hv
    rcases List.mem_map.mp hv with ⟨u, hu, rfl⟩
    have hu2 := h u (List.mem_reverse.mp hu)
    exact ⟨by simpa using hu2.1, fun c hc => hu2.2 c (List.mem_reverse.mp hc)⟩
  unfold pyStrip
  rw [joinSp_dropWhile_self h, joinSp_reverse, joinSp_dropWhile_self hrevgood,
    ← joinSp_reverse, List.reverse_reverse]

theorem collapse_idem (x : Str) : collapse (collapse x) = collapse x := by
  unfold collapse
  rw [splitWS_joinSp (fun w hw => splitWS_words w hw)]

theorem pyStrip_collapse (x : Str) : pyStrip (collapse x) = collapse x :=
  pyStrip_joinSp (fun w hw => splitWS_words w hw)

theorem slugWith_fix {pred : Char → Bool}
    (hp : ∀ c, pred c = true → asciiFold c = [c] ∧ lowerChar c = c ∧ isPyWS c = false)
    {t : Str} (ht : ∀ c ∈ t, c = ' ' ∨ pred c = true)
    (hstrip : pyStrip t = t) (hcollapse : collapse t = t) :
    slugWith pred t = t := by
  have hsp1 : asciiFold ' ' = [' '] := by decide
  have hsp2 : lowerChar ' ' = ' ' := by decide
  have hsp3 : keepWith pred ' ' = ' ' := by unfold keepWith; rw [if_pos (Or.inr rfl)]
  unfold slugWith
  rw [hstrip]
  rw [flatten_map_singleton t
    (fun c hc => by rcases ht c hc with rfl | hpc; exacts [hsp1, (hp c hpc).1])]
  rw [map_id_on t
    (fun c hc => by rcases ht c hc with rfl | hpc; exacts [hsp2, (hp c hpc).2.1])]
  rw [map_id_on t
    (fun c hc => by
      rcases ht c hc with rfl | hpc
      · exact hsp3
      · unfold keepWith; rw [if_pos (Or.inl hpc)])]
  exact hcollapse

theorem slugWith_idem {pred : Char → Bool}
    (hp : ∀ c, pred c = true → asciiFold c = [c] ∧ lowerChar c = c ∧ isPyWS c = false)
    (s : Str) : slugWith pred (slugWith pred s) = slugWith pred s := by
  refine slugWith_fix hp (fun c hc => slugWith_chars hc) ?_ ?_
  · show pyStrip (collapse _) = _
    exact pyStrip_collapse _
  · show collapse (collapse _) = _
    exact collapse_idem _

theorem isAlnumA_ok :
    ∀ c, isAlnumA c = true → asciiFold c = [c] ∧ lowerChar c = c ∧ isPyWS c = false := by
  intro c h
  simp only [isAlnumA, decide_eq_true_eq, Bool.or_eq_true] at h
  have hn : 97 ≤ c.toNat ∧ c.toNat ≤ 122 ∨ 48 ≤ c.toNat ∧ c.toNat ≤ 57 := by
    rcases h with ⟨h1, h2⟩ | ⟨h1, h2⟩
    · refine Or.inl ⟨(char_le_iff _ _).mp h1, (char_le_iff _ _).mp h2⟩
    · refine Or.inr ⟨(char_le_iff _ _).mp h1, (char_le_iff _ _).mp h2⟩
  refine ⟨?_, ?_, ?_⟩
  · unfold asciiFold
    rw [if_pos (by omega)]
  · unfold lowerChar
    rw [if_neg]
    intro ⟨g1, g2⟩
    have hg1 := (char_le_iff _ _).mp g1
    have hg2 := (char_le_iff _ _).mp g2
    rw [show ('A').toNat = 65 by decide] at hg1
    rw [show ('Z').toNat = 90 by decide] at hg2
    omega
  · unfold isPyWS
    have e1 : c ≠ ' ' := fun hh => by subst hh; revert hn; decide
    have e2 : c ≠ '\t' := fun hh => by subst hh; revert hn; decide
    have e3 : c ≠ '\n' := fun hh => by subst hh; revert hn; decide
    have e4 : c ≠ '\r' := fun hh => by subst hh; revert hn; decide
    simp [e1, e2, e3, e4]
    omega

theorem isLowerA_ok :
    ∀ c, NormAct.isLowerA c = true →
      asciiFold c = [c] ∧ lowerChar c = c ∧ isPyWS c = false := by
  intro c h
  simp only [NormAct.isLowerA, decide_eq_true_eq] at h
  have hn : 97 ≤ c.toNat ∧ c.toNat ≤ 122 := by
    have h1 := (char_le_iff _ _).mp h.1
    have h2 := (char_le_iff _ _).mp h.2
    rw [show ('a').toNat = 97 by decide] at h1
    rw [show ('z').toNat = 122 by decide] at h2
    exact ⟨h1, h2⟩
  refine ⟨?_, ?_, ?_⟩
  · unfold asciiFold
    rw [if_pos (by omega)]
  · unfold lowerChar
    rw [if_neg]
    intro ⟨g1, g2⟩
    have hg2 := (char_le_iff _ _).mp g2
    rw [show ('Z').toNat = 90 by decide] at hg2
    omega
  · unfold isPyWS
    have e1 : c ≠ ' ' := fun hh => by subst hh; revert hn; decide
    have e2 : c ≠ '\t' := fun hh => by subst hh; revert hn; decide
    have e3 : c ≠ '\n' := fun hh => by subst hh; revert hn; decide
    have e4 : c ≠ '\r' := fun hh => by subst hh; revert hn; decide
    simp [e1, e2, e3, e4]
    omega

/-!  A second slug definition following the words of the specification
(§4.1): "Unicode-normalize to decompose accents, drop non-ASCII combining
marks, lowercase, replace every character that is not a kept character or
space with a space, collapse consecutive whitespace, trim."  It is compared
with the source's `" ".join(s.split())` implementation. -/

theorem dropWhile_length_le (p : Char → Bool) (l : Str) :
    (l.dropWhile p).length ≤ l.length := by
  induction l with
  | nil => simp
  | cons c t ih =>
    rw [List.dropWhile_cons]
    by_cases h : p c
    · rw [if_pos h]
      exact Nat.le_succ_of_le ih
    · rw [if_neg h]

/-- Collapse every whitespace run to a single space (spec wording). -/
def collapseRuns : Str → Str
  | [] => []
  | c :: rest =>
    if isPyWS c then ' ' :: collapseRuns (rest.dropWhile isPyWS)
    else c :: collapseRuns rest
termination_by s => s.length
decreasing_by
  · simp only [List.length_cons]
    exact Nat.lt_succ_of_le (dropWhile_length_le _ _)
  · simp

/-- Trim spaces from both ends (spec wording). -/
def trimSp (s : Str) : Str :=
  ((s.dropWhile (fun c => c = ' ')).reverse.dropWhile (fun c => c = ' ')).reverse

/-- Modelled from the spec: the slug algorithm as §4.1 words it, with the
keep-predicate as a parameter. -/
def slugSpecWith (pred : Char → Bool) (s : Str) : Str :=
  trimSp (collapseRuns ((((s.map asciiFold).flatten).map lowerChar).map (keepWith pred)))

theorem collapseRuns_nil : collapseRuns [] = [] := by rw [collapseRuns]

theorem collapseRuns_cons_ws {c : Char} (h : isPyWS c = true) (s : Str) :
    collapseRuns (c :: s) = ' ' :: collapseRuns (s.dropWhile isPyWS) := by
  rw [collapseRuns, if_pos h]

theorem collapseRuns_cons_nws {c : Char} (h : isPyWS c = false) (s : Str) :
    collapseRuns (c :: s) = c :: collapseRuns s := by
  rw [collapseRuns, if_neg (by simp [h])]

theorem collapseRuns_word {w : Str} (hw : ∀ c ∈ w, isPyWS c = false) (z : Str) :
    collapseRuns (w ++ z) = w ++ collapseRuns z := by
  induction w with
  | nil => rfl
  | cons c t ih =>
    rw [List.cons_append, collapseRuns_cons_nws (hw c (List.mem_cons_self c t)),
      ih (fun x hx => hw x (List.mem_cons_of_mem c hx))]
    rfl

theorem splitWS_cons_ws {c : Char} (h : isPyWS c = true) (s : Str) :
    splitWS (c :: s) = splitWS s := by
  unfold splitWS
  rw [chunks_cons, if_pos h, List.filter_cons, if_neg (by simp)]

theorem splitWS_dropWhile (s : Str) : splitWS (s.dropWhile isPyWS) = splitWS s := by
  induction s with
  | nil => rfl
  | cons c t ih =>
    by_cases h : isPyWS c
    · rw [List.dropWhile_cons, if_pos h, ih, splitWS_cons_ws h]
    · rw [List.dropWhile_cons, if_neg h]

theorem splitWS_allWS {sp : Str} (h : ∀ c ∈ sp, isPyWS c = true) :
    splitWS sp = [] := by
  unfold splitWS
  rw [List.filter_eq_nil_iff]
  intro w hw
  cases hww : w with
  | nil => simp
  | cons c t =>
    have h1 := chunks_chars w hw c (hww ▸ List.mem_cons_self c t)
    have h2 := chunks_subset w hw c (hww ▸ List.mem_cons_self c t)
    rw [h c h2] at h1
    exact absurd h1 (by simp)

theorem splitWS_eq_nil {z : Str} (h : splitWS z = []) : ∀ c ∈ z, isPyWS c = true := by
  induction z with
  | nil => intro c hc; simp at hc
  | cons c t ih =>
    intro x hx
    by_cases hws : isPyWS c
    · rw [splitWS_cons_ws hws] at h
      rcases List.mem_cons.mp hx with rfl | hx
      · exact hws
      · exact ih h x hx
    · exfalso
      have hx1 : splitWS (c :: t) ≠ [] := by
        unfold splitWS
        rw [chunks_cons, if_neg hws]
        cases hct : chunks t with
        | nil => simp
        | cons w ws => simp
      exact hx1 h

theorem splitWS_single_word {w : Str} (hne : w ≠ [])
    (hw : ∀ c ∈ w, isPyWS c = false) : splitWS w = [w] := by
  have h0 : w = w ++ [] := by simp
  rw [h0, splitWS, chunks_word_append_nil hw (show chunks [] = [] from rfl),
    if_neg hne]
  simp [hne]

theorem splitWS_word_ws {w : Str} (hne : w ≠ []) (hw : ∀ c ∈ w, isPyWS c = false)
    {d : Char} (hd : isPyWS d = true) (rest : Str) :
    splitWS (w ++ d :: rest) = w :: splitWS rest := by
  have hx : chunks (d :: rest) = [] :: chunks rest := by
    rw [chunks_cons, if_pos hd]
  rw [splitWS, chunks_word_append_cons hw hx, List.filter_cons]
  simp only [List.append_nil]
  rw [if_pos (by simpa using hne)]
  rfl

theorem trimSp_cons_space (z : Str) : trimSp (' ' :: z) = trimSp z := by
  unfold trimSp
  rw [List.dropWhile_cons, if_pos (by simp)]

theorem dropWhile_eq_self_head {p : Char → Bool} {c : Char} (h : p c = false)
    (t : Str) : (c :: t).dropWhile p = c :: t := by
  rw [List.dropWhile_cons, if_neg (by simp [h])]

theorem trimSp_word {w : Str} (hw : ∀ c ∈ w, isPyWS c = false) : trimSp w = w := by
  have hsp : ∀ c ∈ w, (fun c => decide (c = ' ')) c = false := by
    intro c hc
    have := hw c hc
    simp only [decide_eq_false_iff_not]
    intro hcon
    subst hcon
    simp [isPyWS] at this
  unfold trimSp
  have h1 : w.dropWhile (fun c => c = ' ') = w := by
    cases w with
    | nil => rfl
    | cons c t =>
      exact dropWhile_eq_self_head (by simpa using hsp c (List.mem_cons_self c t)) t
  rw [h1]
  have h2 : w.reverse.dropWhile (fun c => c = ' ') = w.reverse := by
    cases hwr : w.reverse with
    | nil => rfl
    | cons c t =>
      have hc : c ∈ w := List.mem_reverse.mp (hwr ▸ List.mem_cons_self c t)
      exact dropWhile_eq_self_head (by simpa using hsp c hc) t
  rw [h2, List.reverse_reverse]

theorem dropWhile_shape (p : Char → Bool) (l : Str) :
    l.dropWhile p = [] ∨ ∃ c t, l.dropWhile p = c :: t ∧ p c = false := by
  induction l with
  | nil => left; rfl
  | cons c t ih =>
    by_cases h : p c
    · rw [List.dropWhile_cons, if_pos h]
      exact ih
    · right
      exact ⟨c, t, by rw [List.dropWhile_cons, if_neg h], by simpa using h⟩

theorem dropWhile_append_my (p : Char → Bool) (l₁ l₂ : Str) :
    (l₁ ++ l₂).dropWhile p =
      if l₁.dropWhile p = [] then l₂.dropWhile p else l₁.dropWhile p ++ l₂ := by
  induction l₁ with
  | nil => simp
  | cons c t ih =>
    by_cases h : p c
    · rw [List.cons_append, List.dropWhile_cons, if_pos h, ih,
        List.dropWhile_cons, if_pos h]
    · rw [List.cons_append, List.dropWhile_cons, if_neg h,
        List.dropWhile_cons, if_neg h, if_neg (by simp)]
      rfl

/-- Trailing-space trim. -/
def trimEnd (s : Str) : Str := (s.reverse.dropWhile (fun c => c = ' ')).reverse

theorem trimSp_eq_trimEnd (s : Str) :
    trimSp s = trimEnd (s.dropWhile (fun c => c = ' ')) := rfl

theorem nonWS_ne_space {c : Char} (h : isPyWS c = false) :
    (decide (c = ' ')) = false := by
  simp only [decide_eq_false_iff_not]
  intro hcon
  subst hcon
  simp [isPyWS] at h

theorem trimEnd_word_append {w : Str}
    (hw : ∀ c ∈ w, isPyWS c = false) (y : Str) :
    trimEnd (w ++ y) = w ++ trimEnd y := by
  unfold trimEnd
  rw [List.reverse_append, dropWhile_append_my]
  rcases dropWhile_shape (fun c => decide (c = ' ')) y.reverse with h | ⟨c, t, hct, _⟩
  · rw [if_pos h, h]
    have hwr : w.reverse.dropWhile (fun c => decide (c = ' ')) = w.reverse := by
      cases hx : w.reverse with
      | nil => rfl
      | cons c t =>
        have hc : c ∈ w := List.mem_reverse.mp (hx ▸ List.mem_cons_self c t)
        exact dropWhile_eq_self_head (nonWS_ne_space (hw c hc)) t
    rw [hwr, List.reverse_reverse]
    simp
  · rw [hct, if_neg (by simp), List.reverse_append, List.reverse_reverse]

theorem trimEnd_space_cons (u : Str) :
    trimEnd (' ' :: u) = if trimEnd u = [] then [] else ' ' :: trimEnd u := by
  unfold trimEnd
  rw [List.reverse_cons, dropWhile_append_my]
  rcases dropWhile_shape (fun c => decide (c = ' ')) u.reverse with h | ⟨c, t, hct, _⟩
  · rw [h]
    simp
  · rw [hct]
    rw [if_neg (by simp), if_neg (by simp), List.reverse_append]
    simp

theorem joinSp_ne_nil {v : Str} (hv : v ≠ []) (vs : List Str) :
    joinSp (v :: vs) ≠ [] := by
  cases vs with
  | nil => exact hv
  | cons a as =>
    rw [joinSp_cons_cons]
    simp [hv]

theorem collapseRuns_front {y : Str}
    (hy : y = [] ∨ ∃ c t, y = c :: t ∧ isPyWS c = false) :
    (collapseRuns y).dropWhile (fun c => c = ' ') = collapseRuns y := by
  rcases hy with rfl | ⟨c, t, rfl, hc⟩
  · rw [collapseRuns_nil]
    rfl
  · rw [collapseRuns_cons_nws hc]
    exact dropWhile_eq_self_head (nonWS_ne_space hc) _

theorem collapseRuns_word_only {w : Str} (hw : ∀ c ∈ w, isPyWS c = false) :
    collapseRuns w = w := by
  have h := collapseRuns_word hw []
  rw [List.append_nil, collapseRuns_nil, List.append_nil] at h
  exact h

theorem word_core {w : Str} (hne : w ≠ []) (hw : ∀ c ∈ w, isPyWS c = false) :
    trimSp (collapseRuns w) = joinSp (splitWS w) := by
  rw [collapseRuns_word_only hw, trimSp_word hw, splitWS_single_word hne hw]
  rfl

theorem trimSp_collapseRuns_aux :
    ∀ n (v : Str), v.length ≤ n → trimSp (collapseRuns v) = joinSp (splitWS v) := by
  intro n
  induction n with
  | zero =>
    intro v hv
    have : v = [] := List.length_eq_zero.mp (Nat.le_zero.mp hv)
    subst this
    rw [collapseRuns_nil]
    rfl
  | succ n ih =>
    intro v hv
    cases v with
    | nil =>
      rw [collapseRuns_nil]
      rfl
    | cons c rest =>
      simp only [List.length_cons, Nat.succ_le_succ_iff] at hv
      by_cases hws : isPyWS c
      · rw [collapseRuns_cons_ws (by simpa using hws), trimSp_cons_space,
          splitWS_cons_ws (by simpa using hws), ← splitWS_dropWhile rest]
        exact ih (rest.dropWhile isPyWS) (le_trans (dropWhile_length_le _ _) hv)
      · have hws' : isPyWS c = false := by simpa using hws
        have hsplit : rest = rest.takeWhile (fun x => !isPyWS x) ++
            rest.dropWhile (fun x => !isPyWS x) :=
          (List.takeWhile_append_dropWhile _ _).symm
        have hwchars : ∀ x ∈ c :: rest.takeWhile (fun x => !isPyWS x),
            isPyWS x = false := by
          intro x hx
          rcases List.mem_cons.mp hx with rfl | hx
          · exact hws'
          · have := List.mem_takeWhile_imp hx
            simpa using this
        have hwne : (c :: rest.takeWhile (fun x => !isPyWS x)) ≠ [] := by simp
        have hlen : (rest.dropWhile (fun x => !isPyWS x)).length ≤ rest.length :=
          dropWhile_length_le _ _
        rcases dropWhile_shape (fun x => !isPyWS x) rest with hz | ⟨d, z', hz, hd⟩
        · -- the whole string is a single word
          have hrest : rest = rest.takeWhile (fun x => !isPyWS x) := by
            conv_lhs => rw [hsplit]
            rw [hz, List.append_nil]
          rw [show (c :: rest : Str) = c :: rest.takeWhile (fun x => !isPyWS x) from
            by conv_lhs => rw [hrest]]
          exact word_core hwne hwchars
        · -- word, then a whitespace character, then the tail
          have hdws : isPyWS d = true := by simpa using hd
          have hrest : rest = rest.takeWhile (fun x => !isPyWS x) ++ d :: z' := by
            conv_lhs => rw [hsplit]
            rw [hz]
          have hz'len : z'.length ≤ n := by
            have h2 : (d :: z').length ≤ rest.length := hz ▸ hlen
            simp only [List.length_cons] at h2
            omega
          rw [show (c :: rest : Str) =
              (c :: rest.takeWhile (fun x => !isPyWS x)) ++ d :: z' from by
            conv_lhs => rw [hrest]
            rfl]
          rw [collapseRuns_word hwchars, collapseRuns_cons_ws hdws,
            splitWS_word_ws hwne hwchars hdws]
          have hfront :
              ((c :: rest.takeWhile (fun x => !isPyWS x)) ++
                ' ' :: collapseRuns (z'.dropWhile isPyWS)).dropWhile
                  (fun x => decide (x = ' ')) =
              (c :: rest.takeWhile (fun x => !isPyWS x)) ++
                ' ' :: collapseRuns (z'.dropWhile isPyWS) := by
            rw [List.cons_append]
            exact dropWhile_eq_self_head (nonWS_ne_space hws') _
          rw [trimSp_eq_trimEnd, hfront, trimEnd_word_append hwchars,
            trimEnd_space_cons]
          have hu : trimEnd (collapseRuns (z'.dropWhile isPyWS)) =
              joinSp (splitWS z') := by
            have h1 : trimSp (collapseRuns (z'.dropWhile isPyWS)) =
                joinSp (splitWS (z'.dropWhile isPyWS)) :=
              ih _ (le_trans (dropWhile_length_le _ _) hz'len)
            rw [trimSp_eq_trimEnd,
              collapseRuns_front (dropWhile_shape isPyWS z')] at h1
            rw [h1, splitWS_dropWhile]
          rw [hu]
          cases hsw : splitWS z' with
          | nil =>
            rw [if_pos (show joinSp ([] : List Str) = [] from rfl), List.append_nil]
            rfl
          | cons v1 vs =>
            have hv1 : v1 ≠ [] :=
              (splitWS_words v1 (hsw ▸ List.mem_cons_self v1 vs)).1
            rw [if_neg (joinSp_ne_nil hv1 vs)]
            rfl

theorem trimSp_collapseRuns (v : Str) :
    trimSp (collapseRuns v) = joinSp (splitWS v) :=
  trimSp_collapseRuns_aux v.length v (le_refl _)

/-- The character pipeline shared by both slug formulations: NFKD-fold to
ASCII, lowercase, keep-or-space. -/
def charPipe (pred : Char → Bool) (x : Str) : Str :=
  (((x.map asciiFold).flatten).map lowerChar).map (keepWith pred)

theorem slugWith_eq_collapse (pred : Char → Bool) (s : Str) :
    slugWith pred s = collapse (charPipe pred (pyStrip s)) := rfl

theorem slugSpecWith_eq (pred : Char → Bool) (s : Str) :
    slugSpecWith pred s = trimSp (collapseRuns (charPipe pred s)) := rfl

theorem charPipe_append (pred : Char → Bool) (x y : Str) :
    charPipe pred (x ++ y) = charPipe pred x ++ charPipe pred y := by
  simp [charPipe]

theorem ws_toNat_le {c : Char} (h : isPyWS c = true) : c.toNat ≤ 32 := by
  simp only [isPyWS, Bool.or_eq_true, decide_eq_true_eq] at h
  rcases h with rfl | rfl | rfl | rfl | h | h
  · decide
  · decide
  · decide
  · decide
  · omega
  · omega

theorem charPipe_allWS {pred : Char → Bool}
    (hpred : ∀ c, pred c = true → isPyWS c = false) {sp : Str}
    (hsp : ∀ c ∈ sp, isPyWS c = true) :
    ∀ x ∈ charPipe pred sp, isPyWS x = true := by
  intro x hx
  unfold charPipe at hx
  rcases List.mem_map.mp hx with ⟨e, he, rfl⟩
  rcases List.mem_map.mp he with ⟨f, hf, rfl⟩
  rcases List.mem_flatten.mp hf with ⟨l, hl, hfl⟩
  rcases List.mem_map.mp hl with ⟨c, hc, rfl⟩
  have hcws := hsp c hc
  have hle := ws_toNat_le hcws
  have hfold : asciiFold c = [c] := by
    unfold asciiFold
    rw [if_pos (by omega)]
  rw [hfold] at hfl
  have hfc : f = c := List.mem_singleton.mp hfl
  rw [hfc]
  have hlow : lowerChar c = c := by
    unfold lowerChar
    rw [if_neg]
    intro ⟨g1, _⟩
    have := (char_le_iff _ _).mp g1
    rw [show ('A').toNat = 65 by decide] at this
    omega
  rw [hlow]
  have hkeep : keepWith pred c = ' ' := by
    unfold keepWith
    by_cases hcsp : c = ' '
    · subst hcsp
      split_ifs with h
      · rfl
      · rfl
    · rw [if_neg]
      intro h
      rcases h with h | h
      · rw [hpred c h] at hcws
        exact absurd hcws (by simp)
      · exact hcsp h
  rw [hkeep]
  decide

theorem splitWS_prepend_allWS {sp : Str} (hsp : ∀ c ∈ sp, isPyWS c = true)
    (x : Str) : splitWS (sp ++ x) = splitWS x := by
  induction sp with
  | nil => rfl
  | cons c t ih =>
    rw [List.cons_append, splitWS_cons_ws (hsp c (List.mem_cons_self c t)),
      ih (fun d hd => hsp d (List.mem_cons_of_mem c hd))]

theorem splitWS_append_allWS_aux {sp : Str} (hsp : ∀ c ∈ sp, isPyWS c = true) :
    ∀ n (x : Str), x.length ≤ n → splitWS (x ++ sp) = splitWS x := by
  intro n
  induction n with
  | zero =>
    intro x hx
    have : x = [] := List.length_eq_zero.mp (Nat.le_zero.mp hx)
    subst this
    rw [List.nil_append, splitWS_allWS hsp]
    rfl
  | succ n ih =>
    intro x hx
    cases x with
    | nil =>
      rw [List.nil_append, splitWS_allWS hsp]
      rfl
    | cons c rest =>
      simp only [List.length_cons, Nat.succ_le_succ_iff] at hx
      by_cases hws : isPyWS c
      · rw [List.cons_append, splitWS_cons_ws (by simpa using hws),
          splitWS_cons_ws (by simpa using hws)]
        exact ih rest hx
      · have hws' : isPyWS c = false := by simpa using hws
        have hsplit : rest = rest.takeWhile (fun x => !isPyWS x) ++
            rest.dropWhile (fun x => !isPyWS x) :=
          (List.takeWhile_append_dropWhile _ _).symm
        have hwchars : ∀ x ∈ c :: rest.takeWhile (fun x => !isPyWS x),
            isPyWS x = false := by
          intro x hxm
          rcases List.mem_cons.mp hxm with rfl | hxm
          · exact hws'
          · have := List.mem_takeWhile_imp hxm
            simpa using this
        have hwne : (c :: rest.takeWhile (fun x => !isPyWS x)) ≠ [] := by simp
        have hlen : (rest.dropWhile (fun x => !isPyWS x)).length ≤ rest.length :=
          dropWhile_length_le _ _
        rcases dropWhile_shape (fun x => !isPyWS x) rest with hz | ⟨d, z', hz, hd⟩
        · have hrest : rest = rest.takeWhile (fun x => !isPyWS x) := by
            conv_lhs => rw [hsplit]
            rw [hz, List.append_nil]
          rw [show (c :: rest : Str) = c :: rest.takeWhile (fun x => !isPyWS x) from
            by conv_lhs => rw [hrest]]
          cases hsp0 : sp with
          | nil => rw [List.append_nil]
          | cons d sp0 =>
            have hdws : isPyWS d = true := hsp d (hsp0 ▸ List.mem_cons_self d sp0)
            have hsp0ws : ∀ x ∈ sp0, isPyWS x = true :=
              fun x hxm => hsp x (hsp0 ▸ List.mem_cons_of_mem d hxm)
            rw [splitWS_word_ws hwne hwchars hdws, splitWS_allWS hsp0ws,
              splitWS_single_word hwne hwchars]
        · have hdws : isPyWS d = true := by simpa using hd
          have hrest : rest = rest.takeWhile (fun x => !isPyWS x) ++ d :: z' := by
            conv_lhs => rw [hsplit]
            rw [hz]
          have hz'len : z'.length ≤ n := by
            have h2 : (d :: z').length ≤ rest.length := hz ▸ hlen
            simp only [List.length_cons] at h2
            omega
          rw [show (c :: rest : Str) =
              (c :: rest.takeWhile (fun x => !isPyWS x)) ++ d :: z' from by
            conv_lhs => rw [hrest]
            rfl]
          rw [show ((c :: rest.takeWhile (fun x => !isPyWS x)) ++ d :: z') ++ sp =
              (c :: rest.takeWhile (fun x => !isPyWS x)) ++ d :: (z' ++ sp) from by
            simp]
          rw [splitWS_word_ws hwne hwchars hdws,
            splitWS_word_ws hwne hwchars hdws, ih z' hz'len]

theorem splitWS_append_allWS {sp : Str} (hsp : ∀ c ∈ sp, isPyWS c = true)
    (x : Str) : splitWS (x ++ sp) = splitWS x :=
  splitWS_append_allWS_aux hsp x.length x (le_refl _)

theorem slugWith_eq_slugSpecWith {pred : Char → Bool}
    (hpred : ∀ c, pred c = true → isPyWS c = false) (s : Str) :
    slugWith pred s = slugSpecWith pred s := by
  have hdec1 : s = s.takeWhile isPyWS ++ s.dropWhile isPyWS :=
    (List.takeWhile_append_dropWhile _ _).symm
  have hdec2 : s.dropWhile isPyWS =
      pyStrip s ++ ((s.dropWhile isPyWS).reverse.takeWhile isPyWS).reverse := by
    have h1 : (s.dropWhile isPyWS).reverse =
        (s.dropWhile isPyWS).reverse.takeWhile isPyWS ++
          (s.dropWhile isPyWS).reverse.dropWhile isPyWS :=
      (List.takeWhile_append_dropWhile _ _).symm
    calc s.dropWhile isPyWS = (s.dropWhile isPyWS).reverse.reverse := by
          rw [List.reverse_reverse]
      _ = ((s.dropWhile isPyWS).reverse.takeWhile isPyWS ++
            (s.dropWhile isPyWS).reverse.dropWhile isPyWS).reverse := by rw [← h1]
      _ = _ := by
          rw [List.reverse_append]
          rfl
  have hhead : ∀ c ∈ s.takeWhile isPyWS, isPyWS c = true := by
    intro c hc
    exact List.mem_takeWhile_imp hc
  have htail : ∀ c ∈ ((s.dropWhile isPyWS).reverse.takeWhile isPyWS).reverse,
      isPyWS c = true := by
    intro c hc
    exact List.mem_takeWhile_imp (List.mem_reverse.mp hc)
  have key : splitWS (charPipe pred s) = splitWS (charPipe pred (pyStrip s)) := by
    conv_lhs => rw [hdec1, charPipe_append]
    rw [splitWS_prepend_allWS (charPipe_allWS hpred hhead)]
    rw [show s.dropWhile isPyWS =
        pyStrip s ++ ((s.dropWhile isPyWS).reverse.takeWhile isPyWS).reverse from
      hdec2]
    rw [charPipe_append, splitWS_append_allWS (charPipe_allWS hpred htail)]
  rw [slugWith_eq_collapse, slugSpecWith_eq, trimSp_collapseRuns]
  unfold collapse
  rw [key]

open FuzzyNorm in
theorem apply_alias_idem_aux (d m : Str) :
    apply_alias (apply_alias d m).1 (apply_alias d m).2 = apply_alias d m := by
  by_cases h6 : (slug d = slug (S "Valle del Cauva") ∨ slug d = slug (S "Valle del Cauca")) ∧
      (slug m = slug (S "Santiago de Cali") ∨ slug m = slug (S "Cali") ∨
        lettersOf m = S "santiagodecali" ∨ lettersOf m = S "cali")
  · have e : apply_alias d m = (S "Valle del Cauca", S "Cali") := by
      simp only [apply_alias]
      rw [if_pos h6]
    rw [e]
    decide
  by_cases h5 : slug d = slug (S "Distrito Capital") ∧
      (slug m = slug (S "Bogotá D.C.") ∨ slug m = slug (S "Bogotá") ∨
        lettersOf m = S "bogotadc" ∨ lettersOf m = S "bogota" ∨
        lettersOf m = S "bogotad" ∨ lettersOf m = S "bogotdc")
  · have e : apply_alias d m = (S "Cundinamarca", S "Bogotá") := by
      simp only [apply_alias]
      rw [if_neg h6, if_pos h5]
    rw [e]
    decide
  by_cases h4 : slug d = slug (S "Bolívar") ∧ slug m = slug (S "Santa Rosa de Lima Norte")
  · by_cases h1 : slug d = slug (S "Cesar")
    · exfalso
      have h41 := h4.1
      rw [h1] at h41
      exact absurd h41 (by decide)
    · have e : apply_alias d m = (d, S "Santa Rosa") := by
        simp only [apply_alias]
        rw [if_neg h6, if_neg h5, if_neg h1, if_pos h4]
      rw [e]
      show apply_alias d (S "Santa Rosa") = (d, S "Santa Rosa")
      have hA2 : ¬(slug (S "Santa Rosa") = slug (S "Togüí") ∨
          slug (S "Santa Rosa") = slug (S "Toguí")) := by decide
      have hA3 : ¬(slug d = slug (S "Bolívar") ∧
          (slug (S "Santa Rosa") = slug (S "Cartagena") ∨
            lettersOf (S "Santa Rosa") = lettersOf (S "Cartagena"))) := fun hc => by
        rcases hc.2 with h | h <;> exact absurd h (by decide)
      have hA4 : ¬(slug d = slug (S "Bolívar") ∧
          slug (S "Santa Rosa") = slug (S "Santa Rosa de Lima Norte")) := fun hc =>
        absurd hc.2 (by decide)
      have hA5 : ¬(slug d = slug (S "Distrito Capital") ∧
          (slug (S "Santa Rosa") = slug (S "Bogotá D.C.") ∨
            slug (S "Santa Rosa") = slug (S "Bogotá") ∨
            lettersOf (S "Santa Rosa") = S "bogotadc" ∨
            lettersOf (S "Santa Rosa") = S "bogota" ∨
            lettersOf (S "Santa Rosa") = S "bogotad" ∨
            lettersOf (S "Santa Rosa") = S "bogotdc")) := fun hc => by
        have hc1 := hc.1
        rw [h4.1] at hc1
        exact absurd hc1 (by decide)
      have hA6 : ¬((slug d = slug (S "Valle del Cauva") ∨
            slug d = slug (S "Valle del Cauca")) ∧
          (slug (S "Santa Rosa") = slug (S "Santiago de Cali") ∨
            slug (S "Santa Rosa") = slug (S "Cali") ∨
            lettersOf (S "Santa Rosa") = S "santiagodecali" ∨
            lettersOf (S "Santa Rosa") = S "cali")) := fun hc => by
        have hc1 := hc.1
        rw [h4.1] at hc1
        rcases hc1 with h | h <;> exact absurd h (by decide)
      simp only [apply_alias]
      rw [if_neg hA6, if_neg hA5, if_neg h1, if_neg hA4, if_neg hA3, if_neg hA2]
  by_cases h3 : slug d = slug (S "Bolívar") ∧
      (slug m = slug (S "Cartagena") ∨ lettersOf m = lettersOf (S "Cartagena"))
  · by_cases h1 : slug d = slug (S "Cesar")
    · exfalso
      have h31 := h3.1
      rw [h1] at h31
      exact absurd h31 (by decide)
    · have e : apply_alias d m = (d, S "Cartagena de Indias") := by
        simp only [apply_alias]
        rw [if_neg h6, if_neg h5, if_neg h1, if_neg h4, if_pos h3]
      rw [e]
      show apply_alias d (S "Cartagena de Indias") = (d, S "Cartagena de Indias")
      have hA2 : ¬(slug (S "Cartagena de Indias") = slug (S "Togüí") ∨
          slug (S "Cartagena de Indias") = slug (S "Toguí")) := by decide
      have hA3 : ¬(slug d = slug (S "Bolívar") ∧
          (slug (S "Cartagena de Indias") = slug (S "Cartagena") ∨
            lettersOf (S "Cartagena de Indias") = lettersOf (S "Cartagena"))) :=
        fun hc => by rcases hc.2 with h | h <;> exact absurd h (by decide)
      have hA4 : ¬(slug d = slug (S "Bolívar") ∧
          slug (S "Cartagena de Indias") = slug (S "Santa Rosa de Lima Norte")) :=
        fun hc => absurd hc.2 (by decide)
      have hA5 : ¬(slug d = slug (S "Distrito Capital") ∧
          (slug (S "Cartagena de Indias") = slug (S "Bogotá D.C.") ∨
            slug (S "Cartagena de Indias") = slug (S "Bogotá") ∨
            lettersOf (S "Cartagena de Indias") = S "bogotadc" ∨
            lettersOf (S "Cartagena de Indias") = S "bogota" ∨
            lettersOf (S "Cartagena de Indias") = S "bogotad" ∨
            lettersOf (S "Cartagena de Indias") = S "bogotdc")) := fun hc => by
        have hc1 := hc.1
        rw [h3.1] at hc1
        exact absurd hc1 (by decide)
      have hA6 : ¬((slug d = slug (S "Valle del Cauva") ∨
            slug d = slug (S "Valle del Cauca")) ∧
          (slug (S "Cartagena de Indias") = slug (S "Santiago de Cali") ∨
            slug (S "Cartagena de Indias") = slug (S "Cali") ∨
            lettersOf (S "Cartagena de Indias") = S "santiagodecali" ∨
            lettersOf (S "Cartagena de Indias") = S "cali")) := fun hc => by
        have hc1 := hc.1
        rw [h3.1] at hc1
        rcases hc1 with h | h <;> exact absurd h (by decide)
      simp only [apply_alias]
      rw [if_neg hA6, if_neg hA5, if_neg h1, if_neg hA4, if_neg hA3, if_neg hA2]
  by_cases h2 : slug m = slug (S "Togüí") ∨ slug m = slug (S "Toguí")
  · by_cases h1 : slug d = slug (S "Cesar")
    · have e : apply_alias d m = (S "César", S "Toguí") := by
        simp only [apply_alias]
        rw [if_neg h6, if_neg h5, if_pos h1, if_neg h4, if_neg h3, if_pos h2]
      rw [e]
      decide
    · have e : apply_alias d m = (d, S "Toguí") := by
        simp only [apply_alias]
        rw [if_neg h6, if_neg h5, if_neg h1, if_neg h4, if_neg h3, if_pos h2]
      rw [e]
      show apply_alias d (S "Toguí") = (d, S "Toguí")
      have hA2 : slug (S "Toguí") = slug (S "Togüí") ∨
          slug (S "Toguí") = slug (S "Toguí") := by decide
      have hA3 : ¬(slug d = slug (S "Bolívar") ∧
          (slug (S "Toguí") = slug (S "Cartagena") ∨
            lettersOf (S "Toguí") = lettersOf (S "Cartagena"))) :=
        fun hc => by rcases hc.2 with h | h <;> exact absurd h (by decide)
      have hA4 : ¬(slug d = slug (S "Bolívar") ∧
          slug (S "Toguí") = slug (S "Santa Rosa de Lima Norte")) := fun hc =>
        absurd hc.2 (by decide)
      have hA5 : ¬(slug d = slug (S "Distrito Capital") ∧
          (slug (S "Toguí") = slug (S "Bogotá D.C.") ∨
            slug (S "Toguí") = slug (S "Bogotá") ∨
            lettersOf (S "Toguí") = S "bogotadc" ∨ lettersOf (S "Toguí") = S "bogota" ∨
            lettersOf (S "Toguí") = S "bogotad" ∨
            lettersOf (S "Toguí") = S "bogotdc")) := fun hc => by
        rcases hc.2 with h | h | h | h | h | h <;> exact absurd h (by decide)
      have hA6 : ¬((slug d = slug (S "Valle del Cauva") ∨
            slug d = slug (S "Valle del Cauca")) ∧
          (slug (S "Toguí") = slug (S "Santiago de Cali") ∨
            slug (S "Toguí") = slug (S "Cali") ∨
            lettersOf (S "Toguí") = S "santiagodecali" ∨
            lettersOf (S "Toguí") = S "cali")) := fun hc => by
        rcases hc.2 with h | h | h | h <;> exact absurd h (by decide)
      simp only [apply_alias]
      rw [if_neg hA6, if_neg hA5, if_neg h1, if_neg hA4, if_neg hA3]
      simp
  by_cases h1 : slug d = slug (S "Cesar")
  · have e : apply_alias d m = (S "César", m) := by
      simp only [apply_alias]
      rw [if_neg h6, if_neg h5, if_pos h1, if_neg h4, if_neg h3, if_neg h2]
    rw [e]
    show apply_alias (S "César") m = (S "César", m)
    have hA1 : slug (S "César") = slug (S "Cesar") := by decide
    have hA3 : ¬(slug (S "César") = slug (S "Bolívar") ∧
        (slug m = slug (S "Cartagena") ∨ lettersOf m = lettersOf (S "Cartagena"))) :=
      fun hc => absurd hc.1 (by decide)
    have hA4 : ¬(slug (S "César") = slug (S "Bolívar") ∧
        slug m = slug (S "Santa Rosa de Lima Norte")) := fun hc =>
      absurd hc.1 (by decide)
    have hA5 : ¬(slug (S "César") = slug (S "Distrito Capital") ∧
        (slug m = slug (S "Bogotá D.C.") ∨ slug m = slug (S "Bogotá") ∨
          lettersOf m = S "bogotadc" ∨ lettersOf m = S "bogota" ∨
          lettersOf m = S "bogotad" ∨ lettersOf m = S "bogotdc")) := fun hc =>
      absurd hc.1 (by decide)
    have hA6 : ¬((slug (S "César") = slug (S "Valle del Cauva") ∨
          slug (S "César") = slug (S "Valle del Cauca")) ∧
        (slug m = slug (S "Santiago de Cali") ∨ slug m = slug (S "Cali") ∨
          lettersOf m = S "santiagodecali" ∨ lettersOf m = S "cali")) := fun hc => by
      rcases hc.1 with h | h <;> exact absurd h (by decide)
    simp only [apply_alias]
    rw [if_neg hA6, if_neg hA5, if_pos hA1, if_neg hA4, if_neg hA3, if_neg h2]
  · have e : apply_alias d m = (d, m) := by
      simp only [apply_alias]
      rw [if_neg h6, if_neg h5, if_neg h1, if_neg h4, if_neg h3, if_neg h2]
    rw [e]
    show apply_alias d m = (d, m)
    exact e

/-!  Properties of the difflib model: the ratio is a similarity in `[0,1]`,
and `get_close_matches` returns a member above the cutoff. -/

theorem foldl_preserve {α β : Type} {P : β → Prop} {f : β → α → β} :
    ∀ (l : List α) (init : β), P init →
      (∀ acc x, x ∈ l → P acc → P (f acc x)) → P (l.foldl f init) := by
  intro l
  induction l with
  | nil => intro init h _; exact h
  | cons a t ih =>
    intro init h hstep
    exact ih (f init a) (hstep init a (List.mem_cons_self a t) h)
      (fun acc x hx => hstep acc x (List.mem_cons_of_mem a hx))

theorem commonPrefixLen_le_left : ∀ (a b : Str), commonPrefixLen a b ≤ a.length := by
  intro a
  induction a with
  | nil => intro b; cases b <;> exact Nat.le_refl 0
  | cons x xs ih =>
    intro b
    cases b with
    | nil => simp [commonPrefixLen]
    | cons y ys =>
      rw [commonPrefixLen]
      by_cases h : x = y
      · rw [if_pos h]
        simpa using ih ys
      · rw [if_neg h]
        simp

theorem commonPrefixLen_le_right : ∀ (a b : Str), commonPrefixLen a b ≤ b.length := by
  intro a
  induction a with
  | nil => intro b; cases b <;> exact Nat.zero_le _
  | cons x xs ih =>
    intro b
    cases b with
    | nil => simp [commonPrefixLen]
    | cons y ys =>
      rw [commonPrefixLen]
      by_cases h : x = y
      · rw [if_pos h]
        simpa using ih ys
      · rw [if_neg h]
        simp

theorem longestMatch_bounds (a b : Str) :
    (longestMatch a b).1 + (longestMatch a b).2.2 ≤ a.length ∧
      (longestMatch a b).2.1 + (longestMatch a b).2.2 ≤ b.length := by
  unfold longestMatch
  refine foldl_preserve (P := fun t : Nat × Nat × Nat =>
      t.1 + t.2.2 ≤ a.length ∧ t.2.1 + t.2.2 ≤ b.length) _ _ (by simp) ?_
  intro acc i hi hacc
  refine foldl_preserve (P := fun t : Nat × Nat × Nat =>
      t.1 + t.2.2 ≤ a.length ∧ t.2.1 + t.2.2 ≤ b.length) _ _ hacc ?_
  intro acc2 j hj hacc2
  dsimp only
  by_cases h : commonPrefixLen (a.drop i) (b.drop j) > acc2.2.2
  · rw [if_pos h]
    have hi2 : i ≤ a.length := by
      have := List.mem_range.mp hi
      omega
    have hj2 : j ≤ b.length := by
      have := List.mem_range.mp hj
      omega
    have h1 : commonPrefixLen (a.drop i) (b.drop j) ≤ a.length - i := by
      have := commonPrefixLen_le_left (a.drop i) (b.drop j)
      simpa using this
    have h2 : commonPrefixLen (a.drop i) (b.drop j) ≤ b.length - j := by
      have := commonPrefixLen_le_right (a.drop i) (b.drop j)
      simpa using this
    constructor
    · show i + commonPrefixLen (a.drop i) (b.drop j) ≤ a.length
      omega
    · show j + commonPrefixLen (a.drop i) (b.drop j) ≤ b.length
      omega
  · rw [if_neg h]
    exact hacc2

theorem matchTotalFuel_le :
    ∀ (fuel : Nat) (a b : Str), 2 * matchTotalFuel fuel a b ≤ a.length + b.length := by
  intro fuel
  induction fuel with
  | zero => intro a b; simp [matchTotalFuel]
  | succ n ih =>
    intro a b
    rw [matchTotalFuel]
    by_cases h : (longestMatch a b).2.2 = 0
    · rw [if_pos h]
      simp
    · rw [if_neg h]
      have hb := longestMatch_bounds a b
      have h1 := ih (a.take (longestMatch a b).1) (b.take (longestMatch a b).2.1)
      have h2 := ih (a.drop ((longestMatch a b).1 + (longestMatch a b).2.2))
        (b.drop ((longestMatch a b).2.1 + (longestMatch a b).2.2))
      rw [List.length_take, List.length_take] at h1
      rw [List.length_drop, List.length_drop] at h2
      have hk : 1 ≤ (longestMatch a b).2.2 := Nat.one_le_iff_ne_zero.mpr h
      omega

theorem matchTotal_le (a b : Str) : 2 * matchTotal a b ≤ a.length + b.length :=
  matchTotalFuel_le _ a b

theorem ratioQ_nonneg (a b : Str) : 0 ≤ ratioQ a b := by
  unfold ratioQ
  by_cases h : a.length + b.length = 0
  · rw [if_pos h]
    norm_num
  · rw [if_neg h, Rat.mkRat_eq_div]
    apply div_nonneg
    · positivity
    · positivity

theorem ratioQ_le_one (a b : Str) : ratioQ a b ≤ 1 := by
  unfold ratioQ
  by_cases h : a.length + b.length = 0
  · rw [if_pos h]
  · rw [if_neg h, Rat.mkRat_eq_div]
    rw [div_le_one (by positivity)]
    exact_mod_cast matchTotal_le a b

theorem ratioQ_right_nil {a : Str} (ha : a ≠ []) : ratioQ a [] = 0 := by
  unfold ratioQ
  have hlen : a.length + ([] : Str).length ≠ 0 := by
    simp
    exact ha
  rw [if_neg hlen]
  have hm : matchTotal a [] = 0 := by
    unfold matchTotal
    cases hfuel : a.length + ([] : Str).length with
    | zero => rw [matchTotalFuel]
    | succ n =>
      rw [matchTotalFuel]
      have hlm : (longestMatch a []).2.2 = 0 := by
        unfold longestMatch
        refine foldl_preserve (P := fun t : Nat × Nat × Nat => t.2.2 = 0)
          _ _ (by simp) ?_
        intro acc i _ hacc
        refine foldl_preserve (P := fun t : Nat × Nat × Nat => t.2.2 = 0)
          _ _ hacc ?_
        intro acc2 j _ hacc2
        dsimp only
        have hcp : commonPrefixLen (a.drop i) (([] : Str).drop j) = 0 := by
          have h0 : (([] : Str).drop j) = [] := by simp
          rw [h0]
          cases a.drop i <;> rfl
        rw [hcp]
        rw [if_neg (by omega)]
        exact hacc2
      rw [if_pos hlm]
  rw [hm, Rat.mkRat_eq_div]
  norm_num

theorem ratioQ_left_nil {b : Str} (hb : b ≠ []) : ratioQ [] b = 0 := by
  unfold ratioQ
  have hlen : ([] : Str).length + b.length ≠ 0 := by
    simp
    exact hb
  rw [if_neg hlen]
  have hm : matchTotal [] b = 0 := by
    unfold matchTotal
    cases hfuel : ([] : Str).length + b.length with
    | zero => rw [matchTotalFuel]
    | succ n =>
      rw [matchTotalFuel]
      have hlm : (longestMatch [] b).2.2 = 0 := by
        unfold longestMatch
        refine foldl_preserve (P := fun t : Nat × Nat × Nat => t.2.2 = 0)
          _ _ (by simp) ?_
        intro acc i _ hacc
        refine foldl_preserve (P := fun t : Nat × Nat × Nat => t.2.2 = 0)
          _ _ hacc ?_
        intro acc2 j _ hacc2
        dsimp only
        have hcp : commonPrefixLen (([] : Str).drop i) (b.drop j) = 0 := by
          have h0 : (([] : Str).drop i) = [] := by simp
          rw [h0]
          rfl
        rw [hcp]
        rw [if_neg (by omega)]
        exact hacc2
      rw [if_pos hlm]
  rw [hm, Rat.mkRat_eq_div]
  norm_num

theorem gcmStep_spec {w : Str} {cutoff : ℚ} {poss : List Str}
    (acc : Option (ℚ × Str)) (z : Str) (hz : z ∈ poss)
    (hacc : ∀ r y, acc = some (r, y) → y ∈ poss ∧ r = ratioQ y w ∧ cutoff ≤ r) :
    ∀ r y, gcmStep w cutoff acc z = some (r, y) →
      y ∈ poss ∧ r = ratioQ y w ∧ cutoff ≤ r := by
  intro r y
  unfold gcmStep
  by_cases hc : cutoff ≤ ratioQ z w
  · rw [if_pos hc]
    cases acc with
    | none =>
      intro he
      rw [Option.some.injEq, Prod.mk.injEq] at he
      obtain ⟨hr, hy⟩ := he
      subst hy
      subst hr
      exact ⟨hz, rfl, hc⟩
    | some p =>
      obtain ⟨br, bx⟩ := p
      dsimp only
      by_cases hrep : br < ratioQ z w ∨ (br = ratioQ z w ∧ strLtB bx z)
      · rw [if_pos hrep]
        intro he
        rw [Option.some.injEq, Prod.mk.injEq] at he
        obtain ⟨hr, hy⟩ := he
        subst hy
        subst hr
        exact ⟨hz, rfl, hc⟩
      · rw [if_neg hrep]
        exact hacc r y
  · rw [if_neg hc]
    exact hacc r y

theorem gcm1_mem {w x : Str} {poss : List Str} {cutoff : ℚ}
    (h : get_close_matches1 w poss cutoff = some x) :
    x ∈ poss ∧ cutoff ≤ ratioQ x w := by
  unfold get_close_matches1 at h
  have key : ∀ r y, poss.foldl (gcmStep w cutoff) none = some (r, y) →
      y ∈ poss ∧ r = ratioQ y w ∧ cutoff ≤ r :=
    foldl_preserve
      (P := fun acc => ∀ r y, acc = some (r, y) →
        y ∈ poss ∧ r = ratioQ y w ∧ cutoff ≤ r)
      poss none (by simp) (fun acc z hz hacc => gcmStep_spec acc z hz hacc)
  rcases Option.map_eq_some'.mp h with ⟨p, hp, hpx⟩
  have hkey := key p.1 p.2 hp
  rcases hkey with ⟨hmem, hr, hcut⟩
  rw [← hpx]
  exact ⟨hmem, hr ▸ hcut⟩

theorem gcm1_none {w : Str} {poss : List Str} {cutoff : ℚ}
    (h : ∀ x ∈ poss, ratioQ x w < cutoff) :
    get_close_matches1 w poss cutoff = none := by
  unfold get_close_matches1
  have key : poss.foldl (gcmStep w cutoff) none = none := by
    refine foldl_preserve (P := fun acc => acc = none) poss none rfl ?_
    intro acc z hz hacc
    unfold gcmStep
    rw [if_neg (not_le.mpr (h z hz))]
    exact hacc
  rw [key]
  rfl

/-!  The arg-max fold of tier 6. -/

theorem tier6_fold_spec (ds ms : Str) :
    ∀ (l : List Triple) (b0 : Option Triple) (s0 : ℚ),
      (∀ e' ∈ l, tier6score ds ms e' ≤
          (l.foldl (fun acc e =>
            let sc := tier6score ds ms e
            if acc.2 < sc then (some e, sc) else acc) (b0, s0)).2) ∧
      s0 ≤ (l.foldl (fun acc e =>
            let sc := tier6score ds ms e
            if acc.2 < sc then (some e, sc) else acc) (b0, s0)).2 ∧
      ((l.foldl (fun acc e =>
            let sc := tier6score ds ms e
            if acc.2 < sc then (some e, sc) else acc) (b0, s0)) = (b0, s0) ∨
        ∃ e ∈ l, (l.foldl (fun acc e =>
            let sc := tier6score ds ms e
            if acc.2 < sc then (some e, sc) else acc) (b0, s0)) =
          (some e, tier6score ds ms e)) := by
  intro l
  induction l with
  | nil =>
    intro b0 s0
    exact ⟨by simp, le_refl _, Or.inl rfl⟩
  | cons e t ih =>
    intro b0 s0
    rw [List.foldl_cons]
    dsimp only
    by_cases h : s0 < tier6score ds ms e
    · rw [if_pos h]
      rcases ih (some e) (tier6score ds ms e) with ⟨ih1, ih2, ih3⟩
      refine ⟨?_, ?_, ?_⟩
      · intro e' he'
        rcases List.mem_cons.mp he' with rfl | he'
        · exact ih2
        · exact ih1 e' he'
      · exact le_of_lt (lt_of_lt_of_le h ih2)
      · rcases ih3 with h3 | ⟨e2, he2, h3⟩
        · exact Or.inr ⟨e, List.mem_cons_self e t, h3⟩
        · exact Or.inr ⟨e2, List.mem_cons_of_mem e he2, h3⟩
    · rw [if_neg h]
      rcases ih b0 s0 with ⟨ih1, ih2, ih3⟩
      refine ⟨?_, ?_, ?_⟩
      · intro e' he'
        rcases List.mem_cons.mp he' with rfl | he'
        · exact le_trans (not_lt.mp h) ih2
        · exact ih1 e' he'
      · exact ih2
      · rcases ih3 with h3 | ⟨e2, he2, h3⟩
        · exact Or.inl h3
        · exact Or.inr ⟨e2, List.mem_cons_of_mem e he2, h3⟩

theorem tier6best_spec (ds ms : Str) (l : List Triple) :
    (∀ e' ∈ l, tier6score ds ms e' ≤ (tier6best ds ms l).2) ∧
      0 ≤ (tier6best ds ms l).2 ∧
      (tier6best ds ms l = (none, 0) ∨
        ∃ e ∈ l, tier6best ds ms l = (some e, tier6score ds ms e)) :=
  tier6_fold_spec ds ms l none 0

/-!  Lookup lemmas for the association-list model of Python dicts, and the
structural invariants that `load_canonical` establishes. -/

theorem upsertA_lookup {β : Type} (k : Str × Str) (v : β) (l : List ((Str × Str) × β))
    (k2 : Str × Str) :
    alookup (upsertA k v l) k2 = if k2 = k then some v else alookup l k2 := by
  induction l with
  | nil =>
    by_cases h : k2 = k
    · subst h
      simp [upsertA, alookup]
    · simp [upsertA, alookup, h, Ne.symm h]
  | cons p t ih =>
    obtain ⟨k', v'⟩ := p
    by_cases h : k' = k
    · subst h
      by_cases h2 : k2 = k'
      · subst h2
        simp [upsertA, alookup]
      · simp [upsertA, alookup, h2, Ne.symm h2]
    · by_cases h2 : k' = k2
      · subst h2
        simp [upsertA, alookup, h, Ne.symm h]
      · simp [upsertA, alookup, h, h2, ih]

theorem slookup_insertIfAbsent {β : Type} (k : Str) (v : β) (l : List (Str × β))
    (k2 : Str) :
    slookup (insertIfAbsent k v l) k2 =
      if k2 = k then some ((slookup l k).getD v) else slookup l k2 := by
  induction l with
  | nil =>
    by_cases h : k2 = k
    · subst h
      simp [insertIfAbsent, slookup]
    · simp [insertIfAbsent, slookup, h, Ne.symm h]
  | cons p t ih =>
    obtain ⟨k', v'⟩ := p
    by_cases h : k' = k
    · subst h
      by_cases h2 : k2 = k'
      · subst h2
        simp [insertIfAbsent, slookup]
      · simp [insertIfAbsent, slookup, h2, Ne.symm h2]
    · by_cases h2 : k' = k2
      · subst h2
        simp [insertIfAbsent, slookup, h, Ne.symm h]
      · simp [insertIfAbsent, slookup, h, h2, ih]

theorem slookup_appendAt {β : Type} (k : Str) (x : β) (l : List (Str × List β))
    (k2 : Str) :
    slookup (appendAt k x l) k2 =
      if k2 = k then some (((slookup l k).getD []) ++ [x]) else slookup l k2 := by
  induction l with
  | nil =>
    by_cases h : k2 = k
    · subst h
      simp [appendAt, slookup]
    · simp [appendAt, slookup, h, Ne.symm h]
  | cons p t ih =>
    obtain ⟨k', v'⟩ := p
    by_cases h : k' = k
    · subst h
      by_cases h2 : k2 = k'
      · subst h2
        simp [appendAt, slookup]
      · simp [appendAt, slookup, h2, Ne.symm h2]
    · by_cases h2 : k' = k2
      · subst h2
        simp [appendAt, slookup, h, Ne.symm h]
      · simp [appendAt, slookup, h, h2, ih]

theorem dropWhile_dropWhile (p : Char → Bool) (l : Str) :
    (l.dropWhile p).dropWhile p = l.dropWhile p := by
  rcases dropWhile_shape p l with h | ⟨c, t, h, hc⟩
  · rw [h]
    rfl
  · rw [h]
    exact dropWhile_eq_self_head hc t

theorem pyStrip_head (s : Str) :
    pyStrip s = [] ∨ ∃ c t, pyStrip s = c :: t ∧ isPyWS c = false := by
  unfold pyStrip
  rcases dropWhile_shape isPyWS s with h | ⟨c, t, h, hc⟩
  · rw [h]
    left
    rfl
  · rw [h, List.reverse_cons, dropWhile_append_my]
    rcases dropWhile_shape isPyWS t.reverse with h2 | ⟨e, u, h2, _⟩
    · rw [if_pos h2]
      right
      refine ⟨c, [], ?_, hc⟩
      rw [show List.dropWhile isPyWS [c] = [c] from dropWhile_eq_self_head hc []]
      rfl
    · rw [if_neg (by rw [h2]; simp), h2, List.reverse_append]
      right
      exact ⟨c, (e :: u).reverse, rfl, hc⟩

theorem pyStrip_idem (s : Str) : pyStrip (pyStrip s) = pyStrip s := by
  have h1 : (pyStrip s).dropWhile isPyWS = pyStrip s := by
    rcases pyStrip_head s with h | ⟨c, t, h, hc⟩
    · rw [h]
      rfl
    · rw [h]
      exact dropWhile_eq_self_head hc t
  show (((pyStrip s).dropWhile isPyWS).reverse.dropWhile isPyWS).reverse = pyStrip s
  rw [h1]
  have h2 : (pyStrip s).reverse = ((s.dropWhile isPyWS).reverse).dropWhile isPyWS := by
    unfold pyStrip
    rw [List.reverse_reverse]
  rw [h2, dropWhile_dropWhile]
  rfl

/-- The stripped rows actually loaded by `load_canonical` (rows with an
empty department or municipality are skipped). -/
def cleanTriple (r : Triple) : Option Triple :=
  let d := pyStrip r.1
  let m := pyStrip r.2.1
  let p := pyStrip r.2.2
  if d = [] ∨ m = [] then none else some (d, m, p)

/-- All loaded (stripped, nonempty) rows, in order. -/
def cleanTriples (rows : List Triple) : List Triple := rows.filterMap cleanTriple

open FuzzyNorm in
theorem load_globalMuni_aux (s : Str) :
    ∀ (rows : List Triple) (G0 : Gaz),
      (slookup (rows.foldl loadRow G0).globalMuni s).getD [] =
        (slookup G0.globalMuni s).getD [] ++
          (cleanTriples rows).filter (fun e => slug e.2.1 = s) := by
  intro rows
  induction rows with
  | nil =>
    intro G0
    simp [cleanTriples]
  | cons r rows ih =>
    intro G0
    rw [List.foldl_cons, ih (loadRow G0 r)]
    by_cases hskip : pyStrip r.1 = [] ∨ pyStrip r.2.1 = []
    · have hload : loadRow G0 r = G0 := by
        unfold loadRow
        rw [if_pos hskip]
      have hclean : cleanTriples (r :: rows) = cleanTriples rows := by
        unfold cleanTriples
        rw [List.filterMap_cons]
        have : cleanTriple r = none := by
          unfold cleanTriple
          rw [if_pos hskip]
        rw [this]
      rw [hload, hclean]
    · have hload : (loadRow G0 r).globalMuni =
          appendAt (slug (pyStrip r.2.1)) (pyStrip r.1, pyStrip r.2.1, pyStrip r.2.2)
            G0.globalMuni := by
        unfold loadRow
        rw [if_neg hskip]
      have hclean : cleanTriples (r :: rows) =
          (pyStrip r.1, pyStrip r.2.1, pyStrip r.2.2) :: cleanTriples rows := by
        unfold cleanTriples
        rw [List.filterMap_cons]
        have : cleanTriple r = some (pyStrip r.1, pyStrip r.2.1, pyStrip r.2.2) := by
          unfold cleanTriple
          rw [if_neg hskip]
        rw [this]
      rw [hload, hclean, slookup_appendAt, List.filter_cons]
      by_cases hs : s = slug (pyStrip r.2.1)
      · rw [if_pos hs, if_pos (by simpa using hs.symm)]
        rw [hs]
        simp
      · rw [if_neg hs, if_neg (by simpa using fun hc => hs (Eq.symm hc))]

open FuzzyNorm in
theorem load_canon_mem_aux :
    ∀ (rows : List Triple) (G0 : Gaz) (k : Str × Str) (v : Triple),
      alookup (rows.foldl loadRow G0).canon k = some v →
      alookup G0.canon k = some v ∨
        (v ∈ cleanTriples rows ∧ k = (slug v.1, slug v.2.1)) := by
  intro rows
  induction rows with
  | nil =>
    intro G0 k v h
    exact Or.inl h
  | cons r rows ih =>
    intro G0 k v h
    rw [List.foldl_cons] at h
    rcases ih (loadRow G0 r) k v h with h1 | ⟨hv, hk⟩
    · by_cases hskip : pyStrip r.1 = [] ∨ pyStrip r.2.1 = []
      · have hload : loadRow G0 r = G0 := by
          unfold loadRow
          rw [if_pos hskip]
        rw [hload] at h1
        exact Or.inl h1
      · have hload : (loadRow G0 r).canon =
            upsertA (slug (pyStrip r.1), slug (pyStrip r.2.1))
              (pyStrip r.1, pyStrip r.2.1, pyStrip r.2.2) G0.canon := by
          unfold loadRow
          rw [if_neg hskip]
        rw [hload, upsertA_lookup] at h1
        by_cases hkk : k = (slug (pyStrip r.1), slug (pyStrip r.2.1))
        · rw [if_pos hkk] at h1
          right
          have hv2 : v = (pyStrip r.1, pyStrip r.2.1, pyStrip r.2.2) :=
            (Option.some.inj h1).symm
          constructor
          · unfold cleanTriples
            rw [List.filterMap_cons,
              show cleanTriple r = some (pyStrip r.1, pyStrip r.2.1, pyStrip r.2.2)
                from by unfold cleanTriple; rw [if_neg hskip]]
            rw [hv2]
            exact List.mem_cons_self _ _
          · rw [hv2, hkk]
        · rw [if_neg hkk] at h1
          exact Or.inl h1
    · right
      refine ⟨?_, hk⟩
      unfold cleanTriples at *
      rw [List.filterMap_cons]
      cases cleanTriple r with
      | none => exact hv
      | some e => exact List.mem_cons_of_mem e hv

open FuzzyNorm in
theorem load_canon_mem {rows : List Triple} {k : Str × Str} {v : Triple}
    (h : alookup (load_canonical rows).canon k = some v) :
    v ∈ cleanTriples rows ∧ k = (slug v.1, slug v.2.1) := by
  have h2 : alookup (rows.foldl loadRow ⟨[], [], [], [], []⟩).canon k = some v := h
  rcases load_canon_mem_aux rows ⟨[], [], [], [], []⟩ k v h2 with h3 | h3
  · exact absurd h3 (by simp [alookup])
  · exact h3

open FuzzyNorm in
theorem load_globalMuni {rows : List Triple} (s : Str) :
    (slookup (load_canonical rows).globalMuni s).getD [] =
      (cleanTriples rows).filter (fun e => slug e.2.1 = s) := by
  have h := load_globalMuni_aux s rows ⟨[], [], [], [], []⟩
  simpa [slookup] using h

open FuzzyNorm in
/-- Structural invariants of the loaded gazetteer: every municipality in a
department pool has a canonical entry under `(deptSlug, slug muni)`, the
stored department display name slugs back to its key, department pools have
display names, and canonical values are stripped. -/
def GazInv (G : Gaz) : Prop :=
  (∀ ds l, slookup G.muniByDept ds = some l →
    ∀ mc ∈ l, ∃ v, alookup G.canon (ds, slug mc) = some v) ∧
  (∀ ds nm, slookup G.deptSlugToName ds = some nm → slug nm = ds) ∧
  (∀ ds l, slookup G.muniByDept ds = some l →
    ∃ nm, slookup G.deptSlugToName ds = some nm) ∧
  (∀ k v, alookup G.canon k = some v → pyStrip v.1 = v.1 ∧ pyStrip v.2.1 = v.2.1)

open FuzzyNorm in
theorem loadRow_inv {G : Gaz} (hG : GazInv G) (r : Triple) : GazInv (loadRow G r) := by
  by_cases hskip : pyStrip r.1 = [] ∨ pyStrip r.2.1 = []
  · have h : loadRow G r = G := by
      unfold loadRow
      rw [if_pos hskip]
    rw [h]
    exact hG
  · obtain ⟨hA, hB, hC, hD⟩ := hG
    have hcanon : (loadRow G r).canon =
        upsertA (slug (pyStrip r.1), slug (pyStrip r.2.1))
          (pyStrip r.1, pyStrip r.2.1, pyStrip r.2.2) G.canon := by
      unfold loadRow
      rw [if_neg hskip]
    have hdept : (loadRow G r).deptSlugToName =
        insertIfAbsent (slug (pyStrip r.1)) (pyStrip r.1) G.deptSlugToName := by
      unfold loadRow
      rw [if_neg hskip]
    have hmuni : (loadRow G r).muniByDept =
        appendAt (slug (pyStrip r.1)) (pyStrip r.2.1) G.muniByDept := by
      unfold loadRow
      rw [if_neg hskip]
    refine ⟨?_, ?_, ?_, ?_⟩
    · intro ds l hl mc hmc
      rw [hmuni, slookup_appendAt] at hl
      rw [hcanon, upsertA_lookup]
      by_cases hds : ds = slug (pyStrip r.1)
      · rw [if_pos hds] at hl
        have hl2 : l = (slookup G.muniByDept (slug (pyStrip r.1))).getD [] ++
            [pyStrip r.2.1] := (Option.some.inj hl).symm
        rw [hl2] at hmc
        rcases List.mem_append.mp hmc with hmem | hmem
        · cases hold : slookup G.muniByDept (slug (pyStrip r.1)) with
          | none =>
            rw [hold] at hmem
            simp at hmem
          | some oldl =>
            rw [hold] at hmem
            simp only [Option.getD_some] at hmem
            rcases hA _ _ hold mc hmem with ⟨v, hv⟩
            by_cases hkey : (ds, slug mc) =
                (slug (pyStrip r.1), slug (pyStrip r.2.1))
            · rw [if_pos hkey]
              exact ⟨_, rfl⟩
            · rw [if_neg hkey]
              rw [hds]
              exact ⟨v, hv⟩
        · simp only [List.mem_singleton] at hmem
          subst hmem
          rw [if_pos (by rw [hds])]
          exact ⟨_, rfl⟩
      · rw [if_neg hds] at hl
        rcases hA ds l hl mc hmc with ⟨v, hv⟩
        by_cases hkey : (ds, slug mc) = (slug (pyStrip r.1), slug (pyStrip r.2.1))
        · rw [if_pos hkey]
          exact ⟨_, rfl⟩
        · rw [if_neg hkey]
          exact ⟨v, hv⟩
    · intro ds nm hnm
      rw [hdept, slookup_insertIfAbsent] at hnm
      by_cases hds : ds = slug (pyStrip r.1)
      · rw [if_pos hds] at hnm
        cases hold : slookup G.deptSlugToName (slug (pyStrip r.1)) with
        | none =>
          rw [hold] at hnm
          simp only [Option.getD_none] at hnm
          have hnm2 : nm = pyStrip r.1 := (Option.some.inj hnm).symm
          rw [hnm2, hds]
        | some old =>
          rw [hold] at hnm
          simp only [Option.getD_some] at hnm
          have hnm2 : nm = old := (Option.some.inj hnm).symm
          rw [hnm2, hds]
          exact hB _ _ hold
      · rw [if_neg hds] at hnm
        exact hB ds nm hnm
    · intro ds l hl
      rw [hdept, slookup_insertIfAbsent]
      rw [hmuni, slookup_appendAt] at hl
      by_cases hds : ds = slug (pyStrip r.1)
      · rw [if_pos hds]
        exact ⟨_, rfl⟩
      · rw [if_neg hds] at hl ⊢
        exact hC ds l hl
    · intro k v hv
      rw [hcanon, upsertA_lookup] at hv
      by_cases hk : k = (slug (pyStrip r.1), slug (pyStrip r.2.1))
      · rw [if_pos hk] at hv
        have hv2 : v = (pyStrip r.1, pyStrip r.2.1, pyStrip r.2.2) :=
          (Option.some.inj hv).symm
        rw [hv2]
        exact ⟨pyStrip_idem _, pyStrip_idem _⟩
      · rw [if_neg hk] at hv
        exact hD k v hv

theorem load_canonical_inv (rows : List Triple) : GazInv (load_canonical rows) := by
  have h0 : GazInv ⟨[], [], [], [], []⟩ := by
    refine ⟨?_, ?_, ?_, ?_⟩ <;> intro a b hab <;> simp [slookup, alookup] at hab
  have h : GazInv (rows.foldl loadRow ⟨[], [], [], [], []⟩) :=
    foldl_preserve (P := GazInv) rows ⟨[], [], [], [], []⟩ h0
      (fun acc x _ hacc => loadRow_inv hacc x)
  exact h

theorem slookup_of_mem_keys {β : Type} {l : List (Str × β)} {x : Str}
    (h : x ∈ l.map Prod.fst) : ∃ v, slookup l x = some v := by
  induction l with
  | nil => simp at h
  | cons p t ih =>
    obtain ⟨k, v⟩ := p
    rcases List.mem_map.mp h with ⟨q, hq, hqx⟩
    rcases List.mem_cons.mp hq with rfl | hq
    · exact ⟨v, by unfold slookup; rw [if_pos hqx]⟩
    · by_cases hk : k = x
      · exact ⟨v, by unfold slookup; rw [if_pos hk]⟩
      · rcases ih (List.mem_map.mpr ⟨q, hq, hqx⟩) with ⟨w, hw⟩
        exact ⟨w, by unfold slookup; rw [if_neg hk]; exact hw⟩

open FuzzyNorm in
theorem pickMuni_mem {candidates : List Str} {m x : Str}
    (h : pickMuni candidates m = some x) : x ∈ candidates := by
  unfold pickMuni at h
  cases h1 : get_close_matches1 m candidates (mkRat 8 10) with
  | some y =>
    rw [h1] at h
    have hx : y = x := by simpa using h
    rw [← hx]
    exact (gcm1_mem h1).1
  | none =>
    rw [h1] at h
    cases h2 : get_close_matches1 (slug m) (candidates.map slug) (mkRat 7 10) with
    | none =>
      rw [h2] at h
      simp at h
    | some ms =>
      rw [h2] at h
      dsimp only at h
      have hms := (gcm1_mem h2).1
      rcases List.mem_map.mp hms with ⟨c0, hc0, hslug⟩
      have hfind : ∃ c1, candidates.find? (fun c => slug c = ms) = some c1 := by
        cases hf : candidates.find? (fun c => slug c = ms) with
        | some c1 => exact ⟨c1, rfl⟩
        | none =>
          have hnone := List.find?_eq_none.mp hf c0 hc0
          simp only [decide_eq_true_eq] at hnone
          exact absurd hslug hnone
      rcases hfind with ⟨c1, hf⟩
      rw [hf] at h
      have hx : c1 = x := by simpa using h
      rw [← hx]
      exact List.mem_of_find?_eq_some hf

open FuzzyNorm in
theorem tier3_no_raise {G : Gaz} (hG : GazInv G) (d m : Str) :
    tier3 G d m ≠ TierOut.raise := by
  simp only [tier3]
  cases hcand : slookup G.muniByDept (slug d) with
  | none => exact fun hcon => TierOut.noConfusion hcon
  | some l =>
    simp only [Option.getD_some]
    by_cases hemp : l.isEmpty
    · rw [if_pos hemp]
      exact fun hcon => TierOut.noConfusion hcon
    · rw [if_neg hemp]
      cases hp : pickMuni l m with
      | none => exact fun hcon => TierOut.noConfusion hcon
      | some mCan =>
        rcases hG.2.2.1 _ _ hcand with ⟨nm, hnm⟩
        rw [hnm]
        simp only [Option.getD_some]
        rw [hG.2.1 _ _ hnm]
        rcases hG.1 _ _ hcand mCan (pickMuni_mem hp) with ⟨v, hv⟩
        rw [hv]
        exact fun hcon => TierOut.noConfusion hcon

open FuzzyNorm in
theorem tier4_no_raise {G : Gaz} (hG : GazInv G) (d m : Str) :
    tier4 G d m ≠ TierOut.raise := by
  simp only [tier4]
  cases hg : get_close_matches1 (slug d) (G.deptSlugToName.map Prod.fst)
      (mkRat 8 10) with
  | none => exact fun hcon => TierOut.noConfusion hcon
  | some ds2 =>
    dsimp only
    rcases slookup_of_mem_keys (gcm1_mem hg).1 with ⟨nm, hnm⟩
    rw [hnm]
    dsimp only
    cases hp : pickMuni ((slookup G.muniByDept ds2).getD []) m with
    | none => exact fun hcon => TierOut.noConfusion hcon
    | some mCan =>
      dsimp only
      have hmem2 := pickMuni_mem hp
      cases hcand : slookup G.muniByDept ds2 with
      | none =>
        rw [hcand] at hmem2
        simp at hmem2
      | some l =>
        rw [hcand] at hmem2
        simp only [Option.getD_some] at hmem2
        rcases hG.1 _ _ hcand mCan hmem2 with ⟨v, hv⟩
        rw [hG.2.1 _ _ hnm, hv]
        exact fun hcon => TierOut.noConfusion hcon

open FuzzyNorm in
theorem tier5_no_raise (G : Gaz) (m : Str) : tier5 G m ≠ TierOut.raise := by
  simp only [tier5]
  cases hg : get_close_matches1 (slug m) (G.globalMuni.map Prod.fst) (mkRat 17 20) with
  | none => exact fun hcon => TierOut.noConfusion hcon
  | some s =>
    dsimp only
    cases hl : (slookup G.globalMuni s).getD [] with
    | nil => exact fun hcon => TierOut.noConfusion hcon
    | cons e rest =>
      cases rest with
      | nil => exact fun hcon => TierOut.noConfusion hcon
      | cons f rest2 => exact fun hcon => TierOut.noConfusion hcon

theorem core_isSome {G : Gaz} (hG : GazInv G) (rd rm rp d m : Str) :
    ∃ r, fuzzy_normalize_core G rd rm rp d m = some r := by
  unfold fuzzy_normalize_core
  cases alookup G.canon (FuzzyNorm.slug d, FuzzyNorm.slug m) with
  | some t =>
    dsimp only
    by_cases h : d = t.1 ∧ m = t.2.1
    · rw [if_pos h]
      exact ⟨_, rfl⟩
    · rw [if_neg h]
      exact ⟨_, rfl⟩
  | none =>
    dsimp only
    cases h3 : tier3 G d m with
    | hit r => exact ⟨r, rfl⟩
    | raise => exact absurd h3 (tier3_no_raise hG d m)
    | miss =>
      cases h4 : tier4 G d m with
      | hit r => exact ⟨r, rfl⟩
      | raise => exact absurd h4 (tier4_no_raise hG d m)
      | miss =>
        cases h5 : tier5 G m with
        | hit r => exact ⟨r, rfl⟩
        | raise => exact absurd h5 (tier5_no_raise G m)
        | miss => exact ⟨_, rfl⟩

theorem row_isSome {rows : List Triple} (rd rm rp : Str) :
    ∃ r, fuzzy_normalize_row (load_canonical rows) rd rm rp = some r := by
  unfold fuzzy_normalize_row
  exact core_isSome (load_canonical_inv rows) rd rm rp _ _

theorem tier3_hit_cmp {G : Gaz} {d m : Str} {r : RowRes}
    (h : tier3 G d m = TierOut.hit r) : r.cmp = tagChanged := by
  simp only [tier3] at h
  repeat' split at h
  all_goals first
    | exact TierOut.noConfusion h
    | (injection h with h2; rw [← h2])

theorem tier4_hit_cmp {G : Gaz} {d m : Str} {r : RowRes}
    (h : tier4 G d m = TierOut.hit r) : r.cmp = tagChanged := by
  simp only [tier4] at h
  repeat' split at h
  all_goals first
    | exact TierOut.noConfusion h
    | (injection h with h2; rw [← h2])

theorem tier5_hit_cmp {G : Gaz} {m : Str} {r : RowRes}
    (h : tier5 G m = TierOut.hit r) : r.cmp = tagChanged := by
  simp only [tier5] at h
  repeat' split at h
  all_goals first
    | exact TierOut.noConfusion h
    | (injection h with h2; rw [← h2])

theorem tier6_cases (G : Gaz) (rd rm rp d m : Str) :
    (tier6 G rd rm rp d m).cmp = tagChanged ∨
      tier6 G rd rm rp d m = ⟨rd, rm, rp, tagUnmatched⟩ := by
  simp only [tier6]
  split
  · split
    · left
      rfl
    · right
      rfl
  · right
    rfl

theorem core_shape {G : Gaz} {rd rm rp d m : Str} {res : RowRes}
    (h : fuzzy_normalize_core G rd rm rp d m = some res) :
    res.cmp = tagUnchanged ∨ res.cmp = tagChanged ∨ res.cmp = tagUnmatched := by
  unfold fuzzy_normalize_core at h
  cases hl : alookup G.canon (FuzzyNorm.slug d, FuzzyNorm.slug m) with
  | some t =>
    rw [hl] at h
    dsimp only at h
    by_cases hc : d = t.1 ∧ m = t.2.1
    · rw [if_pos hc] at h
      left
      rw [← Option.some.inj h]
    · rw [if_neg hc] at h
      right
      left
      rw [← Option.some.inj h]
  | none =>
    rw [hl] at h
    dsimp only at h
    cases h3 : tier3 G d m with
    | hit r =>
      rw [h3] at h
      dsimp only at h
      right
      left
      rw [← Option.some.inj h]
      exact tier3_hit_cmp h3
    | raise =>
      rw [h3] at h
      exact Option.noConfusion h
    | miss =>
      rw [h3] at h
      dsimp only at h
      cases h4 : tier4 G d m with
      | hit r =>
        rw [h4] at h
        dsimp only at h
        right
        left
        rw [← Option.some.inj h]
        exact tier4_hit_cmp h4
      | raise =>
        rw [h4] at h
        exact Option.noConfusion h
      | miss =>
        rw [h4] at h
        dsimp only at h
        cases h5 : tier5 G m with
        | hit r =>
          rw [h5] at h
          dsimp only at h
          right
          left
          rw [← Option.some.inj h]
          exact tier5_hit_cmp h5
        | raise =>
          rw [h5] at h
          exact Option.noConfusion h
        | miss =>
          rw [h5] at h
          dsimp only at h
          rcases tier6_cases G rd rm rp d m with hc | hc
          · right
            left
            rw [← Option.some.inj h]
            exact hc
          · right
            right
            rw [← Option.some.inj h, hc]

theorem core_unmatched {G : Gaz} {rd rm rp d m : Str} {res : RowRes}
    (h : fuzzy_normalize_core G rd rm rp d m = some res)
    (hu : res.cmp = tagUnmatched) : res = ⟨rd, rm, rp, tagUnmatched⟩ := by
  unfold fuzzy_normalize_core at h
  cases hl : alookup G.canon (FuzzyNorm.slug d, FuzzyNorm.slug m) with
  | some t =>
    rw [hl] at h
    dsimp only at h
    by_cases hc : d = t.1 ∧ m = t.2.1
    · rw [if_pos hc] at h
      rw [← Option.some.inj h] at hu
      dsimp only at hu
      exact absurd hu (by decide)
    · rw [if_neg hc] at h
      rw [← Option.some.inj h] at hu
      dsimp only at hu
      exact absurd hu (by decide)
  | none =>
    rw [hl] at h
    dsimp only at h
    cases h3 : tier3 G d m with
    | hit r =>
      rw [h3] at h
      dsimp only at h
      rw [← Option.some.inj h] at hu
      rw [tier3_hit_cmp h3] at hu
      exact absurd hu (by decide)
    | raise =>
      rw [h3] at h
      exact Option.noConfusion h
    | miss =>
      rw [h3] at h
      dsimp only at h
      cases h4 : tier4 G d m with
      | hit r =>
        rw [h4] at h
        dsimp only at h
        rw [← Option.some.inj h] at hu
        rw [tier4_hit_cmp h4] at hu
        exact absurd hu (by decide)
      | raise =>
        rw [h4] at h
        exact Option.noConfusion h
      | miss =>
        rw [h4] at h
        dsimp only at h
        cases h5 : tier5 G m with
        | hit r =>
          rw [h5] at h
          dsimp only at h
          rw [← Option.some.inj h] at hu
          rw [tier5_hit_cmp h5] at hu
          exact absurd hu (by decide)
        | raise =>
          rw [h5] at h
          exact Option.noConfusion h
        | miss =>
          rw [h5] at h
          dsimp only at h
          rcases tier6_cases G rd rm rp d m with hc | hc
          · rw [← Option.some.inj h] at hu
            rw [hc] at hu
            exact absurd hu (by decide)
          · rw [← Option.some.inj h, hc]

theorem row_unmatched {G : Gaz} {rd rm rp : Str} {res : RowRes}
    (h : fuzzy_normalize_row G rd rm rp = some res)
    (hu : res.cmp = tagUnmatched) : res = ⟨rd, rm, rp, tagUnmatched⟩ :=
  core_unmatched h hu

theorem row_shape {G : Gaz} {rd rm rp : Str} {res : RowRes}
    (h : fuzzy_normalize_row G rd rm rp = some res) :
    res.cmp = tagUnchanged ∨ res.cmp = tagChanged ∨ res.cmp = tagUnmatched :=
  core_shape h

open FuzzyNorm in
/-- A canonically-stored pair that the alias table leaves alone re-enters the
exact tier and comes out `sin cambio` with its own country. -/
theorem exact_fix {rows : List Triple} {d m c : Str} (rp : Str)
    (hcanon : alookup (load_canonical rows).canon (slug d, slug m) = some (d, m, c))
    (halias : apply_alias d m = (d, m)) :
    fuzzy_normalize_row (load_canonical rows) d m rp =
      some ⟨d, m, c, tagUnchanged⟩ := by
  have hinv := load_canonical_inv rows
  have hstrip := hinv.2.2.2 _ _ hcanon
  show fuzzy_normalize_core (load_canonical rows) d m rp
      (apply_alias (pyStrip d) (pyStrip m)).1 (apply_alias (pyStrip d) (pyStrip m)).2 =
    some ⟨d, m, c, tagUnchanged⟩
  rw [show pyStrip d = d from hstrip.1, show pyStrip m = m from hstrip.2, halias]
  unfold fuzzy_normalize_core
  rw [show ((d, m) : Str × Str).1 = d from rfl, show ((d, m) : Str × Str).2 = m from rfl,
    hcanon]
  dsimp only
  rw [if_pos ⟨rfl, rfl⟩]

open FuzzyNorm in
/-- The full batch loop over a loaded gazetteer: never fails, counts every
input row, preserves order and length, has counters summing to the total,
and tags every output with one of the three outcomes. -/
theorem batch_spec (rows : List Triple) : ∀ inputs : List Triple,
    ∃ out sc ch nc,
      fuzzy_normalize_batch (load_canonical rows) inputs =
        some (out, inputs.length, sc, ch, nc) ∧
      out.length = inputs.length ∧
      inputs.length = sc + ch + nc ∧
      (∀ res ∈ out,
        res.cmp = tagUnchanged ∨ res.cmp = tagChanged ∨ res.cmp = tagUnmatched) ∧
      (∀ i (hi : i < inputs.length) (ho : i < out.length),
        fuzzy_normalize_row (load_canonical rows) (inputs.get ⟨i, hi⟩).1
            (inputs.get ⟨i, hi⟩).2.1 (inputs.get ⟨i, hi⟩).2.2 =
          some (out.get ⟨i, ho⟩)) := by
  intro inputs
  induction inputs with
  | nil =>
    refine ⟨[], 0, 0, 0, rfl, rfl, rfl, ?_, ?_⟩
    · intro res hres
      exact absurd hres (List.not_mem_nil res)
    · intro i hi
      exact absurd hi (Nat.not_lt_zero i)
  | cons r rs ih =>
    obtain ⟨res, hres⟩ := @row_isSome rows r.1 r.2.1 r.2.2
    obtain ⟨out, sc, ch, nc, hb, hlen, hsum, htags, hget⟩ := ih
    refine ⟨res :: out,
      (if res.cmp = tagUnchanged then sc + 1 else sc),
      (if res.cmp = tagChanged then ch + 1 else ch),
      (if res.cmp = tagUnmatched then nc + 1 else nc), ?_, ?_, ?_, ?_, ?_⟩
    · show (match fuzzy_normalize_row (load_canonical rows) r.1 r.2.1 r.2.2 with
        | none => none
        | some res =>
          match fuzzy_normalize_batch (load_canonical rows) rs with
          | none => none
          | some (out, t, sc, ch, nc) =>
            some (res :: out, t + 1,
              (if res.cmp = tagUnchanged then sc + 1 else sc),
              (if res.cmp = tagChanged then ch + 1 else ch),
              (if res.cmp = tagUnmatched then nc + 1 else nc))) = _
      rw [hres, hb]
      dsimp only
      rw [List.length_cons]
    · show out.length + 1 = rs.length + 1
      rw [hlen]
    · rcases core_shape hres with hc | hc | hc
      · rw [if_pos hc, if_neg (fun hx => by rw [hc] at hx; exact absurd hx (by decide)),
          if_neg (fun hx => by rw [hc] at hx; exact absurd hx (by decide))]
        show rs.length + 1 = sc + 1 + ch + nc
        omega
      · rw [if_neg (fun hx => by rw [hc] at hx; exact absurd hx (by decide)), if_pos hc,
          if_neg (fun hx => by rw [hc] at hx; exact absurd hx (by decide))]
        show rs.length + 1 = sc + (ch + 1) + nc
        omega
      · rw [if_neg (fun hx => by rw [hc] at hx; exact absurd hx (by decide)),
          if_neg (fun hx => by rw [hc] at hx; exact absurd hx (by decide)), if_pos hc]
        show rs.length + 1 = sc + ch + (nc + 1)
        omega
    · intro x hx
      rcases List.mem_cons.mp hx with rfl | hx
      · exact core_shape hres
      · exact htags x hx
    · intro i hi ho
      cases i with
      | zero => exact hres
      | succ j =>
        exact hget j (Nat.lt_of_succ_lt_succ hi) (Nat.lt_of_succ_lt_succ ho)

/-!  The claims. -/

set_option maxHeartbeats 1000000

open FuzzyNorm in
/-- Counterexample to C1: the spec promises that reconciling any loaded
gazetteer entry `(d, m, c)` on `(d, m)` yields `sin cambio`, but the alias
step rewrites `("Distrito Capital", "Bogotá")` to `("Cundinamarca",
"Bogotá")` before the exact lookup, so the entry resolves through tier 5
with outcome `cambio` instead. -/
theorem C1_alias_perturbs :
    ¬ (∀ (rows : List Triple) (t : Triple), t ∈ cleanTriples rows →
      fuzzy_normalize_row (load_canonical rows) t.1 t.2.1 t.2.2 =
        some ⟨t.1, t.2.1, t.2.2, tagUnchanged⟩) := by
  intro hall
  exact absurd
    (hall [(S "Distrito Capital", S "Bogotá", S "Colombia")]
      (S "Distrito Capital", S "Bogotá", S "Colombia") (by decide))
    (by decide)

open FuzzyNorm in
/-- C1: amended — for every pair stored in the exact canonical index that
the alias table leaves unchanged, reconciling `(d, m)` yields outcome
`sin cambio` with resolved triple exactly `(d, m, c)`. -/
theorem C1_exact_unchanged {rows : List Triple} {d m c : Str} (rp : Str)
    (hcanon : alookup (load_canonical rows).canon (slug d, slug m) = some (d, m, c))
    (halias : apply_alias d m = (d, m)) :
    fuzzy_normalize_row (load_canonical rows) d m rp = some ⟨d, m, c, tagUnchanged⟩ :=
  exact_fix rp hcanon halias

/-- Witness for C1 at the gazetteer entry `("Antioquia", "Medellín",
"Colombia")`. -/
theorem C1_exact_unchanged_witness :
    fuzzy_normalize_row (load_canonical [(S "Antioquia", S "Medellín", S "Colombia")])
        (S "Antioquia") (S "Medellín") (S "") =
      some ⟨S "Antioquia", S "Medellín", S "Colombia", tagUnchanged⟩ :=
  @C1_exact_unchanged [(S "Antioquia", S "Medellín", S "Colombia")]
    (S "Antioquia") (S "Medellín") (S "Colombia") (S "") (by decide) (by decide)

open FuzzyNorm in
/-- C2: when tiers 1-5 all failed, the engine scores every gazetteer pair by
`0.65 * ratio(municipalitySlug, entryMunicipalitySlug) + 0.35 *
ratio(departmentSlug, entryDepartmentSlug)`, each combined score lying in
`[0, 1]` and below the running maximum; if the maximum reaches `0.62` the
arg-max entry is resolved with outcome `cambio`, otherwise the record is
tagged `no coincidencia`. -/
theorem C2_tier6_argmax (G : Gaz) (rd rm rp d m : Str) :
    (∀ e ∈ G.allPairs,
      0 ≤ tier6score (slug d) (slug m) e ∧ tier6score (slug d) (slug m) e ≤ 1 ∧
        tier6score (slug d) (slug m) e ≤ (tier6best (slug d) (slug m) G.allPairs).2) ∧
    (mkRat 62 100 ≤ (tier6best (slug d) (slug m) G.allPairs).2 →
      ∃ e ∈ G.allPairs,
        tier6best (slug d) (slug m) G.allPairs = (some e, tier6score (slug d) (slug m) e) ∧
        tier6 G rd rm rp d m = ⟨e.1, e.2.1, e.2.2, tagChanged⟩) ∧
    (¬ mkRat 62 100 ≤ (tier6best (slug d) (slug m) G.allPairs).2 →
      tier6 G rd rm rp d m = ⟨rd, rm, rp, tagUnmatched⟩) := by
  obtain ⟨hmax, hnn, hcase⟩ := tier6best_spec (slug d) (slug m) G.allPairs
  refine ⟨?_, ?_, ?_⟩
  · intro e he
    refine ⟨?_, ?_, hmax e he⟩
    · rw [tier6score, qadd_eq, qmul_eq, qmul_eq]
      have h1 := ratioQ_nonneg (slug m) (slug e.2.1)
      have h2 := ratioQ_nonneg (slug d) (slug e.1)
      have c1 : (0 : ℚ) ≤ mkRat 65 100 := by rw [Rat.mkRat_eq_div]; norm_num
      have c2 : (0 : ℚ) ≤ mkRat 35 100 := by rw [Rat.mkRat_eq_div]; norm_num
      exact add_nonneg (mul_nonneg c1 h1) (mul_nonneg c2 h2)
    · rw [tier6score, qadd_eq, qmul_eq, qmul_eq]
      have h1 := ratioQ_le_one (slug m) (slug e.2.1)
      have h2 := ratioQ_le_one (slug d) (slug e.1)
      have h3 := ratioQ_nonneg (slug m) (slug e.2.1)
      have h4 := ratioQ_nonneg (slug d) (slug e.1)
      rw [show (mkRat 65 100 : ℚ) = 65 / 100 from by rw [Rat.mkRat_eq_div]; norm_num,
        show (mkRat 35 100 : ℚ) = 35 / 100 from by rw [Rat.mkRat_eq_div]; norm_num]
      linarith
  · intro h62
    rcases hcase with hnone | ⟨e, he, heq⟩
    · rw [hnone] at h62
      exact absurd h62 (by rw [show ((none, 0) : Option Triple × ℚ).2 = 0 from rfl,
        Rat.mkRat_eq_div]; norm_num)
    · refine ⟨e, he, heq, ?_⟩
      rw [heq] at h62
      dsimp only at h62
      simp only [tier6]
      rw [heq]
      dsimp only
      rw [if_pos h62]
  · intro h62
    rcases hcase with hnone | ⟨e, he, heq⟩
    · simp only [tier6]
      rw [hnone]
    · rw [heq] at h62
      dsimp only at h62
      simp only [tier6]
      rw [heq]
      dsimp only
      rw [if_neg h62]

open FuzzyNorm in
/-- Witness for C2: with a gazetteer far from the candidate the best score
stays below 0.62 and tier 6 tags the row `no coincidencia` keeping its
fields. -/
theorem C2_tier6_argmax_witness :
    tier6 (load_canonical [(S "Antioquia", S "Medellín", S "Colombia")])
      (S "a") (S "b") (S "c") (S "x") (S "y") = ⟨S "a", S "b", S "c", tagUnmatched⟩ :=
  (C2_tier6_argmax (load_canonical [(S "Antioquia", S "Medellín", S "Colombia")])
    (S "a") (S "b") (S "c") (S "x") (S "y")).2.2 (by decide)

open FuzzyNorm in
/-- Counterexample to C3: the spec says an unmatched row keeps the
alias-normalized values with empty country, but the code writes back the
original raw fields and the row's own country: `("Cesar", "X", "Francia")`
stays exactly as read even though the alias step rewrites the department to
`"César"`. -/
theorem C3_pais_not_empty :
    ¬ (∀ (rows : List Triple) (rd rm rp : Str) (res : RowRes),
      fuzzy_normalize_row (load_canonical rows) rd rm rp = some res →
      res.cmp = tagUnmatched →
      res.dep = (apply_alias (pyStrip rd) (pyStrip rm)).1 ∧
        res.mun = (apply_alias (pyStrip rd) (pyStrip rm)).2 ∧ res.pais = []) := by
  intro hall
  exact absurd
    (hall [] (S "Cesar") (S "X") (S "Francia")
      ⟨S "Cesar", S "X", S "Francia", tagUnmatched⟩ (by decide) (by decide))
    (by decide)

/-- C3: amended — an unmatched row keeps its original raw department,
municipality and country (not the alias-normalized values, and the country
is not blanked), and the engine returns normally. -/
theorem C3_unmatched_keeps_row {rows : List Triple} {rd rm rp : Str} {res : RowRes}
    (h : fuzzy_normalize_row (load_canonical rows) rd rm rp = some res)
    (hu : res.cmp = tagUnmatched) :
    res = ⟨rd, rm, rp, tagUnmatched⟩ :=
  row_unmatched h hu

/-- Witness for C3 on the unmatched row `("Cesar", "X", "Francia")` against
an empty gazetteer. -/
theorem C3_unmatched_keeps_row_witness :
    (⟨S "Cesar", S "X", S "Francia", tagUnmatched⟩ : RowRes) =
      ⟨S "Cesar", S "X", S "Francia", tagUnmatched⟩ :=
  @C3_unmatched_keeps_row [] (S "Cesar") (S "X") (S "Francia")
    ⟨S "Cesar", S "X", S "Francia", tagUnmatched⟩ (by decide) (by decide)

/-- Counterexample to C4: an empty department does not short-circuit to
`no coincidencia` — the engine still consults the gazetteer, and here
resolves the row through the unique-global-municipality tier with outcome
`cambio`. -/
theorem C4_empty_dept_matches :
    ¬ (∀ (rows : List Triple) (rm rp : Str) (res : RowRes),
      fuzzy_normalize_row (load_canonical rows) [] rm rp = some res →
      res = ⟨[], rm, rp, tagUnmatched⟩) := by
  intro hall
  exact absurd
    (hall [(S "Antioquia", S "Medellín", S "Colombia")] (S "Medellín") []
      ⟨S "Antioquia", S "Medellín", S "Colombia", tagChanged⟩ (by decide))
    (by decide)

/-- C4: amended — over a loaded gazetteer the engine never raises on any
candidate row, malformed (empty-field) rows included: every row gets a
result, so one bad row never aborts a batch. -/
theorem C4_never_raises (rows : List Triple) (rd rm rp : Str) :
    ∃ r, fuzzy_normalize_row (load_canonical rows) rd rm rp = some r :=
  @row_isSome rows rd rm rp

open FuzzyNorm in
/-- Counterexample to C5: re-running the engine on the resolved output of a
`cambio` row need not produce `sin cambio` — the canonical pair `("Distrito
Capital", "Bogotá")` is rewritten by the alias table on every run, so it
re-evaluates to `cambio` forever. -/
theorem C5_changed_not_fixed :
    ¬ (∀ (rows : List Triple) (rd rm rp : Str) (res res2 : RowRes),
      fuzzy_normalize_row (load_canonical rows) rd rm rp = some res →
      res.cmp = tagChanged →
      fuzzy_normalize_row (load_canonical rows) res.dep res.mun res.pais = some res2 →
      res2.cmp = tagUnchanged) := by
  intro hall
  exact absurd
    (hall [(S "Distrito Capital", S "Bogotá", S "Colombia")]
      (S "Distrito Capital") (S "Bogotá") (S "")
      ⟨S "Distrito Capital", S "Bogotá", S "Colombia", tagChanged⟩
      ⟨S "Distrito Capital", S "Bogotá", S "Colombia", tagChanged⟩
      (by decide) (by decide) (by decide))
    (by decide)

open FuzzyNorm in
/-- C5: amended — a rerun is stable in the weaker sense the code actually
guarantees: an unmatched row reproduces itself exactly, and a resolved row
whose pair is stored in the exact index and untouched by the alias table
re-evaluates to `sin cambio`. -/
theorem C5_rerun_stable {rows : List Triple} {rd rm rp : Str} {res : RowRes} (c : Str)
    (h : fuzzy_normalize_row (load_canonical rows) rd rm rp = some res) :
    (res.cmp = tagUnmatched →
      fuzzy_normalize_row (load_canonical rows) res.dep res.mun res.pais = some res) ∧
    (alookup (load_canonical rows).canon (slug res.dep, slug res.mun) =
        some (res.dep, res.mun, c) →
      apply_alias res.dep res.mun = (res.dep, res.mun) →
      fuzzy_normalize_row (load_canonical rows) res.dep res.mun res.pais =
        some ⟨res.dep, res.mun, c, tagUnchanged⟩) := by
  constructor
  · intro hu
    have he := row_unmatched h hu
    rw [he] at h ⊢
    dsimp only
    exact h
  · intro hcanon halias
    exact exact_fix res.pais hcanon halias

/-- Witness for C5: rerunning on the resolved canonical row
`("Antioquia", "Medellín")` yields `sin cambio`. -/
theorem C5_rerun_stable_witness :
    fuzzy_normalize_row (load_canonical [(S "Antioquia", S "Medellín", S "Colombia")])
        (S "Antioquia") (S "Medellín") (S "Colombia") =
      some ⟨S "Antioquia", S "Medellín", S "Colombia", tagUnchanged⟩ :=
  (@C5_rerun_stable [(S "Antioquia", S "Medellín", S "Colombia")]
    (S "Antioquia") (S "Medellín") (S "Colombia")
    ⟨S "Antioquia", S "Medellín", S "Colombia", tagUnchanged⟩ (S "Colombia")
    (by decide)).2 (by decide) (by decide)

open FuzzyNorm in
/-- C6: the global-unique-municipality tier hits exactly when the fuzzy
match of the municipality slug against the global index succeeds at cutoff
0.85 and the matched slug is shared by exactly one gazetteer entry; with two
or more sharers, or no fuzzy match, the tier misses and the pipeline falls
through. -/
theorem C6_tier5_unique (G : Gaz) (m : Str) :
    (∀ r : RowRes, tier5 G m = TierOut.hit r ↔
      ∃ s e,
        get_close_matches1 (slug m) (G.globalMuni.map Prod.fst) (mkRat 17 20) = some s ∧
        (slookup G.globalMuni s).getD [] = [e] ∧
        r = ⟨e.1, e.2.1, e.2.2, tagChanged⟩) ∧
    (∀ s e f rest,
      get_close_matches1 (slug m) (G.globalMuni.map Prod.fst) (mkRat 17 20) = some s →
      (slookup G.globalMuni s).getD [] = e :: f :: rest →
      tier5 G m = TierOut.miss) ∧
    (get_close_matches1 (slug m) (G.globalMuni.map Prod.fst) (mkRat 17 20) = none →
      tier5 G m = TierOut.miss) := by
  refine ⟨?_, ?_, ?_⟩
  · intro r
    constructor
    · intro h
      simp only [tier5] at h
      cases hg : get_close_matches1 (slug m) (G.globalMuni.map Prod.fst) (mkRat 17 20) with
      | none =>
        rw [hg] at h
        dsimp only at h
        exact TierOut.noConfusion h
      | some s =>
        rw [hg] at h
        dsimp only at h
        cases hl : (slookup G.globalMuni s).getD [] with
        | nil =>
          rw [hl] at h
          dsimp only at h
          exact TierOut.noConfusion h
        | cons e rest =>
          cases rest with
          | nil =>
            rw [hl] at h
            dsimp only at h
            exact ⟨s, e, rfl, hl, (TierOut.hit.inj h).symm⟩
          | cons f rest2 =>
            rw [hl] at h
            dsimp only at h
            exact TierOut.noConfusion h
    · rintro ⟨s, e, hg, hl, hr⟩
      simp only [tier5]
      rw [hg]
      dsimp only
      rw [hl]
      dsimp only
      rw [hr]
  · intro s e f rest hg hl
    simp only [tier5]
    rw [hg]
    dsimp only
    rw [hl]
  · intro hg
    simp only [tier5]
    rw [hg]

open FuzzyNorm in
/-- Witness for C6: with `"San José"` in two departments the matched slug is
ambiguous and tier 5 misses instead of guessing. -/
theorem C6_tier5_unique_witness :
    tier5 (load_canonical [(S "Antioquia", S "San José", S "Colombia"),
      (S "Caldas", S "San José", S "Colombia")]) (S "San José") = TierOut.miss :=
  (C6_tier5_unique (load_canonical [(S "Antioquia", S "San José", S "Colombia"),
      (S "Caldas", S "San José", S "Colombia")]) (S "San José")).2.1
    (S "san jose") (S "Antioquia", S "San José", S "Colombia")
    (S "Caldas", S "San José", S "Colombia") [] (by decide) (by decide)

/-- C7: over a loaded gazetteer the batch driver processes every candidate
(total equals the input length), preserves input order and length in the
output, gives each row exactly one of the three outcomes, and its counters
satisfy `total = sin_cambio + cambio + no_coincidencia`. -/
theorem C7_batch_invariants (rows inputs : List Triple) :
    ∃ out sc ch nc,
      fuzzy_normalize_batch (load_canonical rows) inputs =
        some (out, inputs.length, sc, ch, nc) ∧
      out.length = inputs.length ∧
      inputs.length = sc + ch + nc ∧
      (∀ res ∈ out,
        res.cmp = tagUnchanged ∨ res.cmp = tagChanged ∨ res.cmp = tagUnmatched) ∧
      (∀ i (hi : i < inputs.length) (ho : i < out.length),
        fuzzy_normalize_row (load_canonical rows) (inputs.get ⟨i, hi⟩).1
            (inputs.get ⟨i, hi⟩).2.1 (inputs.get ⟨i, hi⟩).2.2 =
          some (out.get ⟨i, ho⟩)) :=
  batch_spec rows inputs

/-- C8: both slug functions are total, deterministic and idempotent, map the
missing/empty value to the empty string, and identify case, accent and
trailing-punctuation variants of the same name. -/
theorem C8_slug_idem :
    (∀ s : Str, FuzzyNorm.slug (FuzzyNorm.slug s) = FuzzyNorm.slug s) ∧
    (∀ s : Str, NormAct.slug (NormAct.slug s) = NormAct.slug s) ∧
    FuzzyNorm.slugOfOpt none = S "" ∧ NormAct.slugOfOpt none = S "" ∧
    FuzzyNorm.slug (S "Bogotá") = FuzzyNorm.slug (S "BOGOTA") ∧
    FuzzyNorm.slug (S "BOGOTA") = FuzzyNorm.slug (S "bogota ") ∧
    NormAct.slug (S "Bogotá") = NormAct.slug (S "BOGOTA") ∧
    NormAct.slug (S "BOGOTA") = NormAct.slug (S "bogota ") :=
  ⟨fun s => slugWith_idem isAlnumA_ok s, fun s => slugWith_idem isLowerA_ok s,
    by decide, by decide, by decide, by decide, by decide, by decide⟩

/-- Counterexample to C9: the slug of scripts/normalize_activos.py keeps
only lowercase ASCII letters and spaces, so ASCII digits are NOT preserved
there: `slug("Bogotá D.C. 2")` is `"bogota d c"`, which does not end in
`'2'`. -/
theorem C9_digits_dropped :
    ¬ (NormAct.slug (S "Bogotá D.C. 2")).getLast? = some '2' := by decide

/-- C9: amended — both slugs follow the spec's normalize/lowercase/replace/
collapse/trim algorithm, each for its own kept-character class: the slug of
scripts/fuzzy_normalize_activos.py (and generate_activos_comparado.py)
keeps ASCII letters and digits, while the slug of
scripts/normalize_activos.py keeps lowercase ASCII letters only, dropping
digits. -/
theorem C9_slug_algorithm :
    (∀ s : Str, FuzzyNorm.slug s = slugSpecWith isAlnumA s) ∧
    (∀ s : Str, NormAct.slug s = slugSpecWith NormAct.isLowerA s) ∧
    FuzzyNorm.slug (S "Bogotá D.C. 2") = S "bogota d c 2" ∧
    NormAct.slug (S "Bogotá D.C. 2") = S "bogota d c" :=
  ⟨fun s => slugWith_eq_slugSpecWith (fun c hc => (isAlnumA_ok c hc).2.2) s,
   fun s => slugWith_eq_slugSpecWith (fun c hc => (isLowerA_ok c hc).2.2) s,
   by decide, by decide⟩

/-- C10: the alias-normalization step is idempotent — once a pair has been
rewritten by the alias rules, applying the table again leaves it unchanged —
and the two example rewrites of the claim hold. -/
theorem C10_apply_alias_idem :
    (∀ d m : Str, apply_alias (apply_alias d m).1 (apply_alias d m).2 = apply_alias d m) ∧
    apply_alias (S "Distrito Capital") (S "Bogotá") = (S "Cundinamarca", S "Bogotá") ∧
    apply_alias (S "Bolívar") (S "Cartagena") = (S "Bolívar", S "Cartagena de Indias") :=
  ⟨apply_alias_idem_aux, by decide, by decide⟩

end GestUnifServ
